import Mathlib

/-!
# Verification of an elliptic-curve arithmetic engine

Shallow embedding of the Rust sources (`field.rs`, `point.rs`, `curve.rs`,
`protocols/elgamal.rs`) of a teaching elliptic-curve library, together with
proofs and refutations of the specification's claims about it.

Conventions of the embedding:
* Rust `i64` values are modelled as unbounded `Int`; the one place where the
  claim under study is precisely about 64-bit overflow (`FieldElement`
  multiplication) additionally gets a faithful wrapping model (`fmulWrap`).
* Rust `%` on `i64` truncates towards zero, hence is `Int.tmod`; Rust `/` on
  `i64` is `Int.tdiv`.
* A Rust function returning `Result<T, E>` is modelled as `RRes E T`; a
  function that can panic (`assert!`, `unwrap`, `expect`) but returns `T`
  is modelled as `RRes E T` that never uses the `err` constructor, with
  `panics` marking the panic.
-/

namespace ECC

/-- Outcome of an embedded Rust computation: a normal return (`Ok`), a typed
error returned to the caller (`Err`), or a process-aborting panic
(`assert!` / `unwrap` / `expect` failure). -/
inductive RRes (ε : Type) (α : Type) where
  | ok (a : α)
  | err (e : ε)
  | panics
  deriving DecidableEq

namespace RRes

/-- Monadic bind: Rust's `?` operator / sequencing. Errors and panics
short-circuit. -/
def bind {ε α β : Type} : RRes ε α → (α → RRes ε β) → RRes ε β
  | .ok a, f => f a
  | .err e, _ => .err e
  | .panics, _ => .panics

instance {ε : Type} : Monad (RRes ε) where
  pure := .ok
  bind := bind

@[simp] theorem bind_ok {ε α β : Type} (a : α) (f : α → RRes ε β) :
    bind (.ok a) f = f a := rfl

@[simp] theorem bind_err {ε α β : Type} (e : ε) (f : α → RRes ε β) :
    bind (.err e) f = .err e := rfl

@[simp] theorem bind_panics {ε α β : Type} (f : α → RRes ε β) :
    bind (.panics : RRes ε α) f = .panics := rfl

@[simp] theorem monad_bind_eq {ε α β : Type} (x : RRes ε α) (f : α → RRes ε β) :
    x >>= f = bind x f := rfl

@[simp] theorem pure_eq {ε α : Type} (a : α) : (pure a : RRes ε α) = .ok a := rfl

/-- Rust's `map_err`. -/
def mapErr {ε ε' α : Type} (f : ε → ε') : RRes ε α → RRes ε' α
  | .ok a => .ok a
  | .err e => .err (f e)
  | .panics => .panics

@[simp] theorem mapErr_ok {ε ε' α : Type} (f : ε → ε') (a : α) :
    mapErr f (.ok a : RRes ε α) = .ok a := rfl

@[simp] theorem mapErr_err {ε ε' α : Type} (f : ε → ε') (e : ε) :
    mapErr f (.err e : RRes ε α) = .err (f e) := rfl

@[simp] theorem mapErr_panics {ε ε' α : Type} (f : ε → ε') :
    mapErr f (.panics : RRes ε α) = .panics := rfl

/-- Rust's `.expect(..)` / `.unwrap()` on a `Result`: keep the success value,
turn any error into a panic. The target error type is free because the
resulting computation can no longer produce a typed error. -/
def expectR {ε ε' α : Type} : RRes ε α → RRes ε' α
  | .ok a => .ok a
  | .err _ => .panics
  | .panics => .panics

@[simp] theorem expectR_ok {ε ε' α : Type} (a : α) :
    expectR (.ok a : RRes ε α) = (.ok a : RRes ε' α) := rfl

@[simp] theorem expectR_err {ε ε' α : Type} (e : ε) :
    expectR (.err e : RRes ε α) = (.panics : RRes ε' α) := rfl

@[simp] theorem expectR_panics {ε ε' α : Type} :
    expectR (.panics : RRes ε α) = (.panics : RRes ε' α) := rfl

end RRes

/-! ## `field.rs`: field elements -/

/-- `FieldError` from `field.rs`. -/
inductive FieldError where
  | InvalidElement
  | MismatchedFields
  | DivisionByZero
  deriving DecidableEq

/-- `FieldElement` from `field.rs`: `{ value: i64, prime: i64 }`. -/
structure FieldElement where
  value : Int
  prime : Int
  deriving DecidableEq

namespace FieldElement

/-- `FieldElement::new`: reject a non-positive modulus, otherwise normalize
`value` with Rust's `((value % prime) + prime) % prime` (truncating `%`). -/
def new (value prime : Int) : RRes FieldError FieldElement :=
  if prime ≤ 0 then .err .InvalidElement
  else .ok ⟨(value.tmod prime + prime).tmod prime, prime⟩

end FieldElement

/-- `impl Add for FieldElement`: `assert_eq!` on the primes (panic on
mismatch), then `Self::new((self.value + other.value) % self.prime, ..)`
with `.expect(..)`. -/
def fadd (a b : FieldElement) : RRes FieldError FieldElement :=
  if a.prime = b.prime then
    (FieldElement.new ((a.value + b.value).tmod a.prime) a.prime).expectR
  else .panics

/-- `impl Sub for FieldElement`: `assert_eq!` on the primes, then
`Self::new((self.value - other.value + self.prime) % self.prime, ..)`. -/
def fsub (a b : FieldElement) : RRes FieldError FieldElement :=
  if a.prime = b.prime then
    (FieldElement.new ((a.value - b.value + a.prime).tmod a.prime) a.prime).expectR
  else .panics

/-- `impl Mul for FieldElement`: `assert_eq!` on the primes, then
`Self::new((self.value * other.value) % self.prime, ..)`. -/
def fmul (a b : FieldElement) : RRes FieldError FieldElement :=
  if a.prime = b.prime then
    (FieldElement.new ((a.value * b.value).tmod a.prime) a.prime).expectR
  else .panics

/-- `impl Neg for FieldElement`: `Self::new(-self.value, self.prime)` with
`.expect(..)`. -/
def fneg (a : FieldElement) : RRes FieldError FieldElement :=
  (FieldElement.new (-a.value) a.prime).expectR

/-- The `while r != 0` loop of `FieldElement::inv` (extended Euclid over
`i64`, truncating division). State `(old_r, r, old_s, s, old_t, t)`;
returns the final `(old_r, old_s, old_t)`. -/
def egcdLoop (old_r r old_s s old_t t : Int) : Int × Int × Int :=
  if h : r = 0 then (old_r, old_s, old_t)
  else
    egcdLoop r (old_r - old_r.tdiv r * r) s (old_s - old_r.tdiv r * s)
      t (old_t - old_r.tdiv r * t)
  termination_by r.natAbs
  decreasing_by
    have htm : old_r - old_r.tdiv r * r = old_r.tmod r := by
      rw [Int.tmod_def]; ring
    rw [htm]
    have hneg : ∀ x y : Int, (-x).tmod y = -(x.tmod y) := by
      intro x y
      rw [Int.tmod_def, Int.tmod_def, Int.neg_tdiv]
      ring
    rcases lt_or_gt_of_ne h with hn | hp
    · have h2 : 0 ≤ old_r.tmod r ∨ old_r.tmod r = -((-old_r).tmod r) := by
        rcases le_or_lt 0 old_r with ho | ho
        · exact Or.inl (Int.tmod_nonneg r ho)
        · exact Or.inr (by rw [← hneg, neg_neg])
      have h3 : old_r.tmod r = old_r.tmod (-r) := by rw [Int.tmod_neg]
      have h4 : (-old_r).tmod r = (-old_r).tmod (-r) := by rw [Int.tmod_neg]
      have h5 : old_r.tmod (-r) < -r := Int.tmod_lt_of_pos old_r (by omega)
      have h6 : (-old_r).tmod (-r) < -r := Int.tmod_lt_of_pos (-old_r) (by omega)
      have h7 : 0 ≤ (-old_r).tmod r ∨ 0 ≤ old_r.tmod r := by
        rcases le_or_lt 0 old_r with ho | ho
        · exact Or.inr (Int.tmod_nonneg r ho)
        · exact Or.inl (Int.tmod_nonneg r (by omega))
      rcases h2 with h2 | h2 <;> omega
    · have h2 : 0 ≤ old_r.tmod r ∨ old_r.tmod r = -((-old_r).tmod r) := by
        rcases le_or_lt 0 old_r with ho | ho
        · exact Or.inl (Int.tmod_nonneg r ho)
        · exact Or.inr (by rw [← hneg, neg_neg])
      have h5 : old_r.tmod r < r := Int.tmod_lt_of_pos old_r hp
      have h6 : (-old_r).tmod r < r := Int.tmod_lt_of_pos (-old_r) hp
      have h7 : 0 ≤ (-old_r).tmod r ∨ 0 ≤ old_r.tmod r := by
        rcases le_or_lt 0 old_r with ho | ho
        · exact Or.inr (Int.tmod_nonneg r ho)
        · exact Or.inl (Int.tmod_nonneg r (by omega))
      rcases h2 with h2 | h2 <;> omega

/-- `FieldElement::inv`: division-by-zero check, extended Euclidean loop
starting from `(prime, value, 1, 0, 0, 1)`, gcd check, then normalize the
Bézout coefficient through `Self::new`. -/
def finv (a : FieldElement) : RRes FieldError FieldElement :=
  if a.value = 0 then .err .DivisionByZero
  else
    let res := egcdLoop a.prime a.value 1 0 0 1
    if res.1 ≠ 1 then .err .InvalidElement
    else FieldElement.new res.2.2 a.prime

/-- `impl Div for FieldElement`: `assert_eq!` on the primes, then
`other.inv().expect("Division by zero")`, then `self * inverse`. -/
def fdiv (a b : FieldElement) : RRes FieldError FieldElement :=
  if a.prime = b.prime then
    RRes.bind (RRes.expectR (finv b)) (fun i => fmul a i)
  else .panics

/-! ### 64-bit faithful multiplication (for the overflow claim)

`fmul` above computes the product over unbounded integers, which matches the
Rust source only while `self.value * other.value` does not overflow `i64`.
`fmulWrap` is the bit-faithful model: the intermediate product is wrapped to
the `i64` range (two's-complement behaviour of the underlying machine
multiplication). -/

/-- Wrap an unbounded integer to the signed 64-bit range
`[-2^63, 2^63 - 1]`, as two's-complement `i64` arithmetic does. -/
def wrap64 (x : Int) : Int :=
  (x + 2 ^ 63) % 2 ^ 64 - 2 ^ 63

/-- `impl Mul for FieldElement` with the intermediate product computed in
64-bit signed machine arithmetic (no widening): the faithful model of
`(self.value * other.value) % self.prime` on `i64`. -/
def fmulWrap (a b : FieldElement) : RRes FieldError FieldElement :=
  if a.prime = b.prime then
    (FieldElement.new ((wrap64 (a.value * b.value)).tmod a.prime) a.prime).expectR
  else .panics

/-! ## `point.rs`: curve points -/

/-- `PointError` from `point.rs`. `FieldErr` is the `#[from]`-converted
`FieldError` variant. -/
inductive PointError where
  | NotOnCurve
  | DifferentCurves
  | FieldErr (e : FieldError)
  deriving DecidableEq

/-- `Point` from `point.rs`: optional affine coordinates plus the curve
coefficients, all by value. -/
structure Point where
  x : Option FieldElement
  y : Option FieldElement
  a : FieldElement
  b : FieldElement
  deriving DecidableEq

/-- Lift a field computation into a point computation, converting the error
along Rust's `#[from] FieldError` impl (the `?` operator in `point.rs`). -/
def fres {α : Type} : RRes FieldError α → RRes PointError α :=
  RRes.mapErr PointError.FieldErr

namespace Point

/-- `Point::new`: the infinity point passes unchecked; a single missing
coordinate is `NotOnCurve`; otherwise check `y² == x³ + a·x + b` with the
(panicking) field operators and accept or reject. -/
def new (x y : Option FieldElement) (a b : FieldElement) : RRes PointError Point :=
  match x, y with
  | none, none => .ok ⟨none, none, a, b⟩
  | some xv, some yv =>
    RRes.bind (fres (fmul yv yv)) fun y_squared =>
    RRes.bind (fres (fmul xv xv)) fun xx =>
    RRes.bind (fres (fmul xx xv)) fun x_cubed =>
    RRes.bind (fres (fmul a xv)) fun ax =>
    RRes.bind (fres (fadd x_cubed ax)) fun t1 =>
    RRes.bind (fres (fadd t1 b)) fun rhs =>
    if y_squared = rhs then .ok ⟨some xv, some yv, a, b⟩
    else .err .NotOnCurve
  | _, _ => .err .NotOnCurve

/-- `Point::is_infinity`. -/
def isInf (p : Point) : Bool :=
  p.x.isNone && p.y.isNone

/-- The result-coordinate part of `impl Add for Point`, applied once the
slope has been computed: `x3 = s² - x1 - x2`, `y3 = s(x1 - x3) - y1`,
then validate via `Point::new`. -/
def addCoords (slope x1 y1 x2 : FieldElement) (a b : FieldElement) :
    RRes PointError Point :=
  RRes.bind (fres (fmul slope slope)) fun s2 =>
  RRes.bind (fres (fsub s2 x1)) fun t =>
  RRes.bind (fres (fsub t x2)) fun x3 =>
  RRes.bind (fres (fsub x1 x3)) fun d =>
  RRes.bind (fres (fmul slope d)) fun sd =>
  RRes.bind (fres (fsub sd y1)) fun y3 =>
  Point.new (some x3) (some y3) a b

/-- The slope-and-chord part of `impl Add for Point`, reached once the
operands are affine, on the same curve, and not an inverse pair: compute the
slope (tangent if the points coincide, secant otherwise), then the new
coordinates. -/
def addSlopeCase (x1 y1 x2 y2 a b : FieldElement) : RRes PointError Point :=
  RRes.bind
    (if x1 = x2 ∧ y1 = y2 then
      RRes.bind (fres (fmul x1 x1)) fun xx =>
      RRes.bind (fres (FieldElement.new 3 x1.prime)) fun three =>
      RRes.bind (fres (fmul xx three)) fun t3 =>
      RRes.bind (fres (fadd t3 a)) fun numerator =>
      RRes.bind (fres (fadd y1 y1)) fun denominator =>
      fres (fdiv numerator denominator)
    else
      RRes.bind (fres (fsub y2 y1)) fun dy =>
      RRes.bind (fres (fsub x2 x1)) fun dx =>
      fres (fdiv dy dx)) fun slope =>
  addCoords slope x1 y1 x2 a b

/-- `impl Add for Point`: curve check, identity absorption, inverse-pair
check (`-y2` evaluated only when `x1 == x2`, as Rust's `&&`
short-circuits), then the slope cases. Coordinates are read with
`unwrap()`, which panics if only one coordinate is present. -/
def add (p q : Point) : RRes PointError Point :=
  if p.a ≠ q.a ∨ p.b ≠ q.b then .err .DifferentCurves
  else if p.isInf then .ok q
  else if q.isInf then .ok p
  else
    match p.x, p.y, q.x, q.y with
    | some x1, some y1, some x2, some y2 =>
      if x1 = x2 then
        RRes.bind (fres (fneg y2)) fun ny2 =>
        if y1 = ny2 then Point.new none none p.a p.b
        else addSlopeCase x1 y1 x2 y2 p.a p.b
      else addSlopeCase x1 y1 x2 y2 p.a p.b
    | _, _, _, _ => .panics

/-- `impl Neg for Point`: infinity is fixed; otherwise negate the
`y`-coordinate (a panicking field negation) and keep everything else. -/
def negP (p : Point) : RRes PointError Point :=
  if p.isInf then .ok p
  else
    match p.y with
    | some yv => RRes.bind (fres (fneg yv)) fun ny => .ok ⟨p.x, some ny, p.a, p.b⟩
    | none => .ok ⟨p.x, none, p.a, p.b⟩

/-- The `while coef > 0` loop of `impl Mul<i64> for Point` (double-and-add).
On a positive `i64`, `coef & 1` is `coef % 2` and `coef >> 1` is `coef / 2`. -/
def mulLoop (coef : Int) (current result : Point) : RRes PointError Point :=
  if hc : 0 < coef then
    RRes.bind (if coef.tmod 2 = 1 then Point.add result current else .ok result)
      fun result' =>
    RRes.bind (Point.add current current) fun current' =>
    mulLoop (coef.tdiv 2) current' result'
  else .ok result
  termination_by coef.toNat
  decreasing_by
    have h2 : coef.tdiv 2 = coef / 2 := Int.tdiv_eq_ediv (by omega) (by omega)
    rw [h2]
    omega

/-- `impl Mul<i64> for Point`: identity-initialized double-and-add. -/
def mulScalar (p : Point) (scalar : Int) : RRes PointError Point :=
  RRes.bind (Point.new none none p.a p.b) fun result =>
  mulLoop scalar p result

end Point

/-! ## `curve.rs`: curves -/

/-- `CurveError` from `curve.rs`. -/
inductive CurveError where
  | InvalidParameters
  | PointGenerationFailed
  deriving DecidableEq

/-- `Curve` from `curve.rs`. -/
structure Curve where
  a : FieldElement
  b : FieldElement
  prime : Int
  deriving DecidableEq

namespace Curve

/-- `Curve::new`: normalize `a`, `b` into the field (mapping failures to
`InvalidParameters`), then reject the curve when `4a³ + 27b²` is zero in the
field. The constants `4` and `27` are built with `.unwrap()`. -/
def newC (a b prime : Int) : RRes CurveError Curve :=
  RRes.bind ((FieldElement.new a prime).mapErr fun _ => CurveError.InvalidParameters)
    fun av =>
  RRes.bind ((FieldElement.new b prime).mapErr fun _ => CurveError.InvalidParameters)
    fun bv =>
  RRes.bind ((FieldElement.new 4 prime).expectR : RRes CurveError FieldElement)
    fun four =>
  RRes.bind ((fmul av av).expectR) fun aa =>
  RRes.bind ((fmul aa av).expectR) fun aaa =>
  RRes.bind ((fmul aaa four).expectR) fun a_cubed =>
  RRes.bind ((FieldElement.new 27 prime).expectR : RRes CurveError FieldElement)
    fun twenty7 =>
  RRes.bind ((fmul bv bv).expectR) fun bb =>
  RRes.bind ((fmul bb twenty7).expectR) fun b_squared =>
  RRes.bind ((fadd a_cubed b_squared).expectR) fun disc =>
  if disc.value = 0 then .err .InvalidParameters
  else .ok ⟨av, bv, prime⟩

/-- The `for n in 1..=self.prime` loop of `Curve::point_order`: add `point`
into the accumulator; report `n + 1` on reaching infinity; any addition
error becomes `PointGenerationFailed`; exhausting the bound fails too. -/
def orderLoop (point : Point) (prime : Int) (current : Point) (n : Int) :
    RRes CurveError Int :=
  if hn : n ≤ prime then
    match Point.add current point with
    | .ok next =>
      if next.isInf then .ok (n + 1)
      else orderLoop point prime next (n + 1)
    | .err _ => .err .PointGenerationFailed
    | .panics => .panics
  else .err .PointGenerationFailed
  termination_by (prime + 1 - n).toNat
  decreasing_by omega

/-- `Curve::point_order`: brute-force search starting from the point itself. -/
def pointOrder (c : Curve) (point : Point) : RRes CurveError Int :=
  orderLoop point c.prime point 1

end Curve

/-! ## `protocols/elgamal.rs`: ElGamal encryption -/

/-- `ProtocolError` from `protocols/mod.rs`. -/
inductive ProtocolError where
  | InvalidParameters
  | OperationFailed
  deriving DecidableEq

/-- `Ciphertext` from `protocols/elgamal.rs`. -/
structure Ciphertext where
  c1 : Point
  c2 : Point
  deriving DecidableEq

/-- `ElGamal` from `protocols/elgamal.rs`. -/
structure ElGamal where
  curve : Curve
  generator : Point
  private_key : Int
  public_key : Point

namespace ElGamal

/-- `ElGamal::encrypt` with a caller-supplied ephemeral scalar, i.e. the
`encrypt(message, Some(r))` path: `r.unwrap_or_else(..)` returns `r`
without drawing randomness, after the order of the generator has been
computed (and its failure mapped to `InvalidParameters`). -/
def encryptSome (e : ElGamal) (message : Point) (r : Int) :
    RRes ProtocolError Ciphertext :=
  RRes.bind ((Curve.pointOrder e.curve e.generator).mapErr
    fun _ => ProtocolError.InvalidParameters) fun _order =>
  RRes.bind ((Point.mulScalar e.generator r).mapErr
    fun _ => ProtocolError.OperationFailed) fun c1 =>
  RRes.bind ((Point.mulScalar e.public_key r).mapErr
    fun _ => ProtocolError.OperationFailed) fun rb =>
  RRes.bind ((Point.add message rb).mapErr
    fun _ => ProtocolError.OperationFailed) fun c2 =>
  .ok ⟨c1, c2⟩

/-- `ElGamal::decrypt`: `-kC1`, then `C2 + (-kC1)`. -/
def decrypt (e : ElGamal) (ct : Ciphertext) : RRes ProtocolError Point :=
  RRes.bind ((Point.mulScalar ct.c1 e.private_key).mapErr
    fun _ => ProtocolError.OperationFailed) fun kc1 =>
  RRes.bind ((Point.negP kc1).mapErr fun _ => ProtocolError.OperationFailed)
    fun neg_kc1 =>
  (Point.add ct.c2 neg_kc1).mapErr fun _ => ProtocolError.OperationFailed

end ElGamal

/-! ## Abstraction: validity invariants and the interpretation in `ZMod p` -/

/-- The invariant of a reachable `FieldElement` over the field with `p`
elements: its modulus is `p` and its value is normalized into `[0, p)`.
Every element built by `FieldElement::new` satisfies it (the Rust fields are
private, so reachable values always do). -/
def FieldElement.Valid (p : ℕ) (e : FieldElement) : Prop :=
  e.prime = (p : Int) ∧ 0 ≤ e.value ∧ e.value < (p : Int)

/-- Interpretation of a field element in the mathematical field `ZMod p`. -/
def toZ (p : ℕ) (e : FieldElement) : ZMod p := (e.value : ZMod p)

/-- The short-Weierstrass curve `y² = x³ + a·x + b` over `ZMod p` determined
by the embedded coefficients `A` and `B`. -/
def Wc (p : ℕ) (A B : FieldElement) : WeierstrassCurve.Affine (ZMod p) :=
  { a₁ := 0, a₂ := 0, a₃ := 0, a₄ := toZ p A, a₆ := toZ p B }

/-- The invariant of a reachable `Point` on the curve `(A, B)` over the field
with `p` elements: the stored coefficients are `A` and `B`, and either both
coordinates are absent (the point at infinity) or both are present, valid
field elements satisfying the curve equation in `ZMod p`. -/
def Point.Valid (p : ℕ) (A B : FieldElement) (P : Point) : Prop :=
  P.a = A ∧ P.b = B ∧
    ((P.x = none ∧ P.y = none) ∨
      (∃ xe ye, P.x = some xe ∧ P.y = some ye ∧ xe.Valid p ∧ ye.Valid p ∧
        toZ p ye ^ 2 = toZ p xe ^ 3 + toZ p A * toZ p xe + toZ p B))

/-- Interpretation of an embedded point as a nonsingular rational point of
the Mathlib Weierstrass curve. The nonsingularity certificate is taken as an
argument (it is proof-irrelevant, so the value does not depend on it). An
affine point maps to `some`, anything else to the zero of the group. -/
noncomputable def toW (p : ℕ) (A B : FieldElement) (P : Point)
    (h : ∀ xe ye, P.x = some xe → P.y = some ye →
      (Wc p A B).Nonsingular (toZ p xe) (toZ p ye)) : (Wc p A B).Point :=
  match hx : P.x, hy : P.y with
  | some xe, some ye => .some (h xe ye hx hy)
  | some _, none => 0
  | none, some _ => 0
  | none, none => 0

/-! ## Normalization facts -/

/-- Truncating remainder by the negation of the dividend. -/
theorem tmod_neg_left (a b : Int) : (-a).tmod b = -(a.tmod b) := by
  rw [Int.tmod_def, Int.tmod_def, Int.neg_tdiv]
  ring

/-- The truncating remainder is strictly smaller than the divisor in
absolute value; this is what makes the Euclidean loop terminate. -/
theorem natAbs_tmod_lt (a : Int) {b : Int} (hb : b ≠ 0) :
    (a.tmod b).natAbs < b.natAbs := by
  rcases lt_or_gt_of_ne hb with hneg | hpos
  · have h1 : a.tmod b = a.tmod (-b) := (Int.tmod_neg a (-b)).symm ▸ by
      rw [neg_neg]
    rcases le_or_lt 0 a with ha | ha
    · have h2 : 0 ≤ a.tmod (-b) := Int.tmod_nonneg (-b) ha
      have h3 : a.tmod (-b) < -b := Int.tmod_lt_of_pos a (by omega)
      omega
    · have h4 : a.tmod (-b) = -((-a).tmod (-b)) := by
        rw [← tmod_neg_left, neg_neg]
      have h2 : 0 ≤ (-a).tmod (-b) := Int.tmod_nonneg (-b) (by omega)
      have h3 : (-a).tmod (-b) < -b := Int.tmod_lt_of_pos (-a) (by omega)
      omega
  · rcases le_or_lt 0 a with ha | ha
    · have h2 : 0 ≤ a.tmod b := Int.tmod_nonneg b ha
      have h3 : a.tmod b < b := Int.tmod_lt_of_pos a hpos
      omega
    · have h4 : a.tmod b = -((-a).tmod b) := by rw [← tmod_neg_left, neg_neg]
      have h2 : 0 ≤ (-a).tmod b := Int.tmod_nonneg b (by omega)
      have h3 : (-a).tmod b < b := Int.tmod_lt_of_pos (-a) hpos
      omega


/-- The truncating remainder and the Euclidean remainder agree modulo `q`. -/
theorem tmod_emod (v q : Int) : v.tmod q % q = v % q := by
  conv_lhs => rw [show v.tmod q = v + q * (-(v.tdiv q)) by rw [Int.tmod_def]; ring]
  rw [Int.add_mul_emod_self_left]

/-- Rust's `((v % q) + q) % q` double-remainder normalization computes the
mathematical (Euclidean) remainder whenever the modulus is positive. -/
theorem norm_eq_emod (v q : Int) (hq : 0 < q) :
    (v.tmod q + q).tmod q = v % q := by
  have h2 : v.tmod q < q := Int.tmod_lt_of_pos v hq
  have h1 : -q < v.tmod q := by
    rcases le_or_lt 0 v with hv | hv
    · have h0 : 0 ≤ v.tmod q := Int.tmod_nonneg q hv
      omega
    · have h4 : v.tmod q = -((-v).tmod q) := by rw [← tmod_neg_left, neg_neg]
      have h5 : (-v).tmod q < q := Int.tmod_lt_of_pos (-v) hq
      omega
  have h3 : 0 ≤ v.tmod q + q := by omega
  rw [Int.tmod_eq_emod h3 (by omega)]
  have he : v.tmod q + q = v.tmod q + q * 1 := by ring
  rw [he, Int.add_mul_emod_self_left, tmod_emod]

/-- `FieldElement::new` on a positive modulus: success with the Euclidean
remainder as stored value. -/
theorem FieldElement.new_ok (v q : Int) (hq : 0 < q) :
    FieldElement.new v q = .ok ⟨v % q, q⟩ := by
  unfold FieldElement.new
  rw [if_neg (by omega), norm_eq_emod v q hq]

theorem FieldElement.new_valid (v : Int) (p : ℕ) (hp : 0 < p) :
    FieldElement.Valid p ⟨v % (p : Int), (p : Int)⟩ := by
  have hp' : (0 : Int) < (p : Int) := by exact_mod_cast hp
  exact ⟨rfl, Int.emod_nonneg v (by omega), Int.emod_lt_of_pos v hp'⟩

/-! ## The bridge to `ZMod p`: theorems -/

theorem toZ_inj {p : ℕ} (hp : 0 < p) {e₁ e₂ : FieldElement}
    (h₁ : e₁.Valid p) (h₂ : e₂.Valid p) (h : toZ p e₁ = toZ p e₂) : e₁ = e₂ := by
  obtain ⟨hq₁, hl₁, hu₁⟩ := h₁
  obtain ⟨hq₂, hl₂, hu₂⟩ := h₂
  have hmod : e₁.value ≡ e₂.value [ZMOD (p : ℕ)] :=
    (ZMod.intCast_eq_intCast_iff _ _ _).mp h
  have hemod : e₁.value % (p : Int) = e₂.value % (p : Int) := hmod
  rw [Int.emod_eq_of_lt hl₁ hu₁, Int.emod_eq_of_lt hl₂ hu₂] at hemod
  cases e₁; cases e₂
  simp only at hq₁ hq₂ hemod
  simp [hq₁, hq₂, hemod]

theorem toZ_eq_zero_iff {p : ℕ} (hp : 0 < p) {e : FieldElement}
    (he : e.Valid p) : toZ p e = 0 ↔ e.value = 0 := by
  haveI : NeZero p := ⟨by omega⟩
  obtain ⟨hq, hl, hu⟩ := he
  rw [toZ, ZMod.intCast_zmod_eq_zero_iff_dvd]
  constructor
  · intro hdvd
    exact Int.eq_zero_of_dvd_of_natAbs_lt_natAbs hdvd (by omega)
  · rintro h0
    rw [h0]
    exact dvd_zero _

/-- Casting the Euclidean remainder into `ZMod p` recovers the cast of the
original integer. -/
theorem intCast_emod_eq {p : ℕ} (v : Int) :
    ((v % (p : Int) : Int) : ZMod p) = ((v : Int) : ZMod p) := by
  have h : v % (p : Int) ≡ v [ZMOD (p : ℕ)] := Int.emod_emod_of_dvd v dvd_rfl
  exact (ZMod.intCast_eq_intCast_iff _ _ _).mpr h

/-! Success and `ZMod` correspondence of the four total field operators on
valid operands. -/

theorem fadd_ok {p : ℕ} (hp : 0 < p) {a b : FieldElement}
    (ha : a.Valid p) (hb : b.Valid p) :
    ∃ c, fadd a b = .ok c ∧ c.Valid p ∧ toZ p c = toZ p a + toZ p b := by
  have hq : a.prime = b.prime := by rw [ha.1, hb.1]
  have hp' : (0 : Int) < (p : Int) := by exact_mod_cast hp
  refine ⟨⟨(a.value + b.value) % (p : Int), (p : Int)⟩, ?_, ?_, ?_⟩
  · unfold fadd
    rw [if_pos hq, ha.1, FieldElement.new_ok _ _ hp', tmod_emod]
    rfl
  · exact FieldElement.new_valid _ p hp
  · show (((a.value + b.value) % (p : Int) : Int) : ZMod p) = _
    rw [intCast_emod_eq]
    push_cast
    rfl

theorem fsub_ok {p : ℕ} (hp : 0 < p) {a b : FieldElement}
    (ha : a.Valid p) (hb : b.Valid p) :
    ∃ c, fsub a b = .ok c ∧ c.Valid p ∧ toZ p c = toZ p a - toZ p b := by
  have hq : a.prime = b.prime := by rw [ha.1, hb.1]
  have hp' : (0 : Int) < (p : Int) := by exact_mod_cast hp
  refine ⟨⟨(a.value - b.value + (p : Int)) % (p : Int), (p : Int)⟩, ?_, ?_, ?_⟩
  · unfold fsub
    rw [if_pos hq, ha.1, FieldElement.new_ok _ _ hp', tmod_emod]
    rfl
  · exact FieldElement.new_valid _ p hp
  · show (((a.value - b.value + (p : Int)) % (p : Int) : Int) : ZMod p) = _
    rw [intCast_emod_eq]
    push_cast
    simp only [ZMod.natCast_self, add_zero]
    rfl

theorem fmul_ok {p : ℕ} (hp : 0 < p) {a b : FieldElement}
    (ha : a.Valid p) (hb : b.Valid p) :
    ∃ c, fmul a b = .ok c ∧ c.Valid p ∧ toZ p c = toZ p a * toZ p b := by
  have hq : a.prime = b.prime := by rw [ha.1, hb.1]
  have hp' : (0 : Int) < (p : Int) := by exact_mod_cast hp
  refine ⟨⟨(a.value * b.value) % (p : Int), (p : Int)⟩, ?_, ?_, ?_⟩
  · unfold fmul
    rw [if_pos hq, ha.1, FieldElement.new_ok _ _ hp', tmod_emod]
    rfl
  · exact FieldElement.new_valid _ p hp
  · show (((a.value * b.value) % (p : Int) : Int) : ZMod p) = _
    rw [intCast_emod_eq]
    push_cast
    rfl

/-- Invariants of the extended Euclidean loop, for the fixed pair `(A, B)`
seeding the Bézout tracks: from non-negative remainder state whose rows
satisfy the Bézout identity, the loop returns `(g, sg, tg)` with
`sg·A + tg·B = g`, `g` a common divisor of the state, and `g ≥ 0`. -/
theorem egcdLoop_spec (A B : Int) (old_r r old_s s old_t t : Int) :
    0 ≤ old_r → 0 ≤ r →
    old_s * A + old_t * B = old_r → s * A + t * B = r →
    (egcdLoop old_r r old_s s old_t t).2.1 * A +
        (egcdLoop old_r r old_s s old_t t).2.2 * B =
        (egcdLoop old_r r old_s s old_t t).1 ∧
      (egcdLoop old_r r old_s s old_t t).1 ∣ old_r ∧
      (egcdLoop old_r r old_s s old_t t).1 ∣ r ∧
      0 ≤ (egcdLoop old_r r old_s s old_t t).1 := by
  induction old_r, r, old_s, s, old_t, t using egcdLoop.induct with
  | case1 old_r old_s s old_t t =>
    intro hor hr h1 h2
    rw [egcdLoop, dif_pos rfl]
    exact ⟨h1, dvd_refl _, dvd_zero _, hor⟩
  | case2 old_r r old_s s old_t t h ih =>
    intro hor hr h1 h2
    rw [egcdLoop, dif_neg h]
    have htm : old_r - old_r.tdiv r * r = old_r.tmod r := by
      rw [Int.tmod_def]; ring
    have hnn : 0 ≤ old_r - old_r.tdiv r * r := htm ▸ Int.tmod_nonneg r hor
    have hb2 : (old_s - old_r.tdiv r * s) * A + (old_t - old_r.tdiv r * t) * B =
        old_r - old_r.tdiv r * r := by
      linear_combination h1 - old_r.tdiv r * h2
    obtain ⟨ib, id1, id2, ipos⟩ := ih hr hnn h2 hb2
    refine ⟨ib, ?_, id1, ipos⟩
    have h5 := dvd_add id2 (Dvd.dvd.mul_left id1 (old_r.tdiv r))
    rwa [show old_r - old_r.tdiv r * r + old_r.tdiv r * r = old_r from by ring] at h5

/-- `FieldElement::inv` on a valid non-zero element of a prime field:
success, a normalized result, and a genuine multiplicative inverse. -/
theorem finv_ok {p : ℕ} (hp : p.Prime) {a : FieldElement} (ha : a.Valid p)
    (hnz : a.value ≠ 0) :
    ∃ c, finv a = .ok c ∧ c.Valid p ∧ toZ p c * toZ p a = 1 := by
  obtain ⟨hq, hl, hu⟩ := ha
  have hp0 : (0 : Int) < (p : Int) := by exact_mod_cast hp.pos
  obtain ⟨hb, hd1, hd2, hgnn⟩ :=
    egcdLoop_spec a.prime a.value a.prime a.value 1 0 0 1
      (by omega) (by omega) (by ring) (by ring)
  have hvpos : 0 < a.value := lt_of_le_of_ne hl (Ne.symm hnz)
  -- the gcd track ends at 1: it divides the prime p yet is at most a.value < p
  have hgle : (egcdLoop a.prime a.value 1 0 0 1).1 ≤ a.value := Int.le_of_dvd hvpos hd2
  have hgn0 : (egcdLoop a.prime a.value 1 0 0 1).1 ≠ 0 := by
    intro h0
    rw [h0] at hd2
    exact hnz (zero_dvd_iff.mp hd2)
  have hg1 : (egcdLoop a.prime a.value 1 0 0 1).1 = 1 := by
    have h6 : (egcdLoop a.prime a.value 1 0 0 1).1 ∣ (p : Int) := hq ▸ hd1
    have h7 : (egcdLoop a.prime a.value 1 0 0 1).1.natAbs ∣ p := by
      have h8 := Int.natAbs_dvd_natAbs.mpr h6
      simpa using h8
    rcases Nat.Prime.eq_one_or_self_of_dvd hp _ h7 with h1 | hph
    · omega
    · omega
  refine ⟨⟨(egcdLoop a.prime a.value 1 0 0 1).2.2 % (p : Int), (p : Int)⟩, ?_,
    FieldElement.new_valid _ p hp.pos, ?_⟩
  · simp only [finv, hnz, hg1, ite_false, if_neg, reduceIte, ne_eq,
      not_true_eq_false]
    rw [hq, FieldElement.new_ok _ _ hp0]
  · show (((egcdLoop a.prime a.value 1 0 0 1).2.2 % (p : Int) : Int) : ZMod p) *
      ((a.value : Int) : ZMod p) = 1
    rw [intCast_emod_eq]
    have hone := congrArg (fun z : Int => (z : ZMod p)) (hb.trans hg1)
    simp only at hone
    push_cast at hone
    rw [hq] at hone
    push_cast at hone
    rw [ZMod.natCast_self, mul_zero, zero_add] at hone
    rw [hq]
    exact hone

/-- `impl Div for FieldElement` on valid operands with non-zero divisor over
a prime field: success and field division in `ZMod p`. -/
theorem fdiv_ok {p : ℕ} (hp : p.Prime) {a b : FieldElement}
    (ha : a.Valid p) (hb : b.Valid p) (hbz : b.value ≠ 0) :
    ∃ c, fdiv a b = .ok c ∧ c.Valid p ∧ toZ p c = toZ p a * (toZ p b)⁻¹ := by
  haveI : Fact p.Prime := ⟨hp⟩
  obtain ⟨i, hi, hiv, hinv⟩ := finv_ok hp hb hbz
  obtain ⟨c, hc, hcv, hcz⟩ := fmul_ok hp.pos ha hiv
  refine ⟨c, ?_, hcv, ?_⟩
  · unfold fdiv
    rw [if_pos (by rw [ha.1, hb.1]), hi]
    simpa using hc
  · rw [hcz]
    congr 1
    exact inv_eq_of_mul_eq_one_left hinv |>.symm

theorem fneg_ok {p : ℕ} (hp : 0 < p) {a : FieldElement} (ha : a.Valid p) :
    ∃ c, fneg a = .ok c ∧ c.Valid p ∧ toZ p c = -toZ p a := by
  have hp' : (0 : Int) < (p : Int) := by exact_mod_cast hp
  refine ⟨⟨(-a.value) % (p : Int), (p : Int)⟩, ?_, ?_, ?_⟩
  · unfold fneg
    rw [ha.1, FieldElement.new_ok _ _ hp']
    rfl
  · exact FieldElement.new_valid _ p hp
  · show (((-a.value) % (p : Int) : Int) : ZMod p) = _
    rw [intCast_emod_eq]
    push_cast
    rfl

/-- A wrapped value already inside the signed 64-bit range is unchanged. -/
theorem wrap64_eq_self {x : Int} (h1 : -(2 ^ 63) ≤ x) (h2 : x ≤ 2 ^ 63 - 1) :
    wrap64 x = x := by
  unfold wrap64
  rw [Int.emod_eq_of_lt (by omega) (by omega)]
  omega

/-! ## The embedded curve as a Mathlib Weierstrass curve -/

theorem Wc_negY (p : ℕ) (A B : FieldElement) (x y : ZMod p) :
    (Wc p A B).negY x y = -y := by
  show -y - (Wc p A B).a₁ * x - (Wc p A B).a₃ = -y
  have h1 : (Wc p A B).a₁ = 0 := rfl
  have h3 : (Wc p A B).a₃ = 0 := rfl
  rw [h1, h3]
  ring

theorem Wc_equation_iff (p : ℕ) (A B : FieldElement) (x y : ZMod p) :
    (Wc p A B).Equation x y ↔ y ^ 2 = x ^ 3 + toZ p A * x + toZ p B := by
  rw [WeierstrassCurve.Affine.equation_iff]
  have h1 : (Wc p A B).a₁ = 0 := rfl
  have h2 : (Wc p A B).a₂ = 0 := rfl
  have h3 : (Wc p A B).a₃ = 0 := rfl
  have h4 : (Wc p A B).a₄ = toZ p A := rfl
  have h6 : (Wc p A B).a₆ = toZ p B := rfl
  rw [h1, h2, h3, h4, h6]
  constructor <;> intro h <;> linear_combination h

theorem Wc_Delta (p : ℕ) (A B : FieldElement) :
    (Wc p A B).Δ = -16 * (4 * toZ p A ^ 3 + 27 * toZ p B ^ 2) := by
  have h1 : (Wc p A B).a₁ = 0 := rfl
  have h2 : (Wc p A B).a₂ = 0 := rfl
  have h3 : (Wc p A B).a₃ = 0 := rfl
  have h4 : (Wc p A B).a₄ = toZ p A := rfl
  have h6 : (Wc p A B).a₆ = toZ p B := rfl
  simp only [WeierstrassCurve.Δ, WeierstrassCurve.b₂, WeierstrassCurve.b₄,
    WeierstrassCurve.b₆, WeierstrassCurve.b₈, h1, h2, h3, h4, h6]
  ring

/-- Unpacking the affine part of the point invariant. -/
theorem Point.Valid.affine {p : ℕ} {A B : FieldElement} {P : Point}
    (hP : P.Valid p A B) {xe ye : FieldElement}
    (hx : P.x = some xe) (hy : P.y = some ye) :
    xe.Valid p ∧ ye.Valid p ∧
      toZ p ye ^ 2 = toZ p xe ^ 3 + toZ p A * toZ p xe + toZ p B := by
  rcases hP.2.2 with ⟨h1, _⟩ | ⟨a', b', hx', hy', h3, h4, h5⟩
  · rw [hx] at h1
    cases h1
  · rw [hx] at hx'
    rw [hy] at hy'
    obtain rfl : xe = a' := by injection hx'
    obtain rfl : ye = b' := by injection hy'
    exact ⟨h3, h4, h5⟩

/-- A valid affine point is nonsingular on the Mathlib curve as soon as the
discriminant does not vanish. -/
theorem Point.Valid.ns {p : ℕ} {A B : FieldElement} (hΔ : (Wc p A B).Δ ≠ 0)
    {P : Point} (hP : P.Valid p A B) :
    ∀ xe ye, P.x = some xe → P.y = some ye →
      (Wc p A B).Nonsingular (toZ p xe) (toZ p ye) := by
  intro xe ye hx hy
  obtain ⟨_, _, heq⟩ := hP.affine hx hy
  exact WeierstrassCurve.Affine.nonsingular_of_Δ_ne_zero _
    ((Wc_equation_iff p A B _ _).mpr heq) hΔ

/-- `Point::new` on two present, valid coordinates: it succeeds exactly when
the curve equation holds in `ZMod p`, and fails `NotOnCurve` otherwise. -/
theorem Point.new_affine {p : ℕ} (hp : 0 < p) {A B xe ye : FieldElement}
    (hA : A.Valid p) (hB : B.Valid p) (hx : xe.Valid p) (hy : ye.Valid p) :
    (toZ p ye ^ 2 = toZ p xe ^ 3 + toZ p A * toZ p xe + toZ p B →
      Point.new (some xe) (some ye) A B = .ok ⟨some xe, some ye, A, B⟩) ∧
    (toZ p ye ^ 2 ≠ toZ p xe ^ 3 + toZ p A * toZ p xe + toZ p B →
      Point.new (some xe) (some ye) A B = .err .NotOnCurve) := by
  obtain ⟨ys, hys, hysv, hysz⟩ := fmul_ok hp hy hy
  obtain ⟨xx, hxx, hxxv, hxxz⟩ := fmul_ok hp hx hx
  obtain ⟨xc, hxc, hxcv, hxcz⟩ := fmul_ok hp hxxv hx
  obtain ⟨ax, hax, haxv, haxz⟩ := fmul_ok hp hA hx
  obtain ⟨t1, ht1, ht1v, ht1z⟩ := fadd_ok hp hxcv haxv
  obtain ⟨rhs, hrhs, hrhsv, hrhsz⟩ := fadd_ok hp ht1v hB
  have hred : Point.new (some xe) (some ye) A B =
      (if ys = rhs then .ok ⟨some xe, some ye, A, B⟩ else .err .NotOnCurve) := by
    simp only [Point.new, hys, hxx, hxc, hax, ht1, hrhs, fres, RRes.mapErr_ok,
      RRes.bind_ok]
  have hzys : toZ p ys = toZ p ye ^ 2 := by rw [hysz]; ring
  have hzrhs : toZ p rhs = toZ p xe ^ 3 + toZ p A * toZ p xe + toZ p B := by
    rw [hrhsz, ht1z, hxcz, hxxz, haxz]
    ring
  constructor
  · intro heq
    rw [hred, if_pos]
    exact toZ_inj hp hysv hrhsv (by rw [hzys, hzrhs, heq])
  · intro hne
    rw [hred, if_neg]
    intro hcon
    apply hne
    rw [← hzys, ← hzrhs, hcon]

/-! ## Claim C8 -/

/-- **C8**: `Point::new` with both coordinates absent always succeeds with
the point at infinity; with exactly one coordinate present it fails
`NotOnCurve`; with both present (valid, over a positive shared modulus) it
succeeds exactly when `y² = x³ + a·x + b` holds in the field, and fails
`NotOnCurve` otherwise. -/
theorem C8_point_new {p : ℕ} (hp : 0 < p) (A B xe ye : FieldElement)
    (hA : A.Valid p) (hB : B.Valid p) (hx : xe.Valid p) (hy : ye.Valid p) :
    (∀ a b : FieldElement, Point.new none none a b = .ok ⟨none, none, a, b⟩) ∧
    (∀ a b xv : FieldElement, Point.new (some xv) none a b = .err .NotOnCurve) ∧
    (∀ a b yv : FieldElement, Point.new none (some yv) a b = .err .NotOnCurve) ∧
    (toZ p ye ^ 2 = toZ p xe ^ 3 + toZ p A * toZ p xe + toZ p B →
      Point.new (some xe) (some ye) A B = .ok ⟨some xe, some ye, A, B⟩) ∧
    (toZ p ye ^ 2 ≠ toZ p xe ^ 3 + toZ p A * toZ p xe + toZ p B →
      Point.new (some xe) (some ye) A B = .err .NotOnCurve) := by
  obtain ⟨h1, h2⟩ := Point.new_affine hp hA hB hx hy
  exact ⟨fun a b => rfl, fun a b xv => rfl, fun a b yv => rfl, h1, h2⟩

/-- Witness for C8 over `y² = x³ + 7` on `F₂₂₃`: `(192, 105)` is accepted,
and the one-coordinate cases are rejected. -/
theorem C8_witness :
    Point.new (some ⟨192, 223⟩) (some ⟨105, 223⟩) ⟨0, 223⟩ ⟨7, 223⟩ =
      .ok ⟨some ⟨192, 223⟩, some ⟨105, 223⟩, ⟨0, 223⟩, ⟨7, 223⟩⟩ ∧
    Point.new none none ⟨0, 223⟩ ⟨7, 223⟩ =
      .ok ⟨none, none, ⟨0, 223⟩, ⟨7, 223⟩⟩ ∧
    Point.new (some ⟨192, 223⟩) none ⟨0, 223⟩ ⟨7, 223⟩ = .err .NotOnCurve := by
  have h := C8_point_new (p := 223) (by norm_num) ⟨0, 223⟩ ⟨7, 223⟩
    ⟨192, 223⟩ ⟨105, 223⟩ (by constructor <;> norm_num)
    (by constructor <;> norm_num) (by constructor <;> norm_num)
    (by constructor <;> norm_num)
  refine ⟨h.2.2.2.1 (by decide), h.1 _ _, h.2.1 _ _ _⟩

/-! ## The group-law computation, case by case -/

/-- The coordinate computation of point addition: given a computed slope
`s` that interprets to Mathlib's `slope`, it succeeds and produces exactly
Mathlib's `addX`/`addY` coordinates, which satisfy the curve equation. -/
theorem addCoords_spec {p : ℕ} [hpf : Fact p.Prime] {A B x1 y1 x2 y2 s : FieldElement}
    (hA : A.Valid p) (hB : B.Valid p)
    (hx1 : x1.Valid p) (hy1 : y1.Valid p) (hx2 : x2.Valid p) (hy2 : y2.Valid p)
    (hs : s.Valid p)
    (e1 : toZ p y1 ^ 2 = toZ p x1 ^ 3 + toZ p A * toZ p x1 + toZ p B)
    (e2 : toZ p y2 ^ 2 = toZ p x2 ^ 3 + toZ p A * toZ p x2 + toZ p B)
    (hxy : toZ p x1 = toZ p x2 → toZ p y1 ≠ (Wc p A B).negY (toZ p x2) (toZ p y2))
    (hsz : toZ p s = (Wc p A B).slope (toZ p x1) (toZ p x2) (toZ p y1) (toZ p y2)) :
    ∃ x3 y3 : FieldElement,
      Point.addCoords s x1 y1 x2 A B = .ok ⟨some x3, some y3, A, B⟩ ∧
      x3.Valid p ∧ y3.Valid p ∧
      toZ p x3 = (Wc p A B).addX (toZ p x1) (toZ p x2)
        ((Wc p A B).slope (toZ p x1) (toZ p x2) (toZ p y1) (toZ p y2)) ∧
      toZ p y3 = (Wc p A B).addY (toZ p x1) (toZ p x2) (toZ p y1)
        ((Wc p A B).slope (toZ p x1) (toZ p x2) (toZ p y1) (toZ p y2)) ∧
      toZ p y3 ^ 2 = toZ p x3 ^ 3 + toZ p A * toZ p x3 + toZ p B := by
  have hp : p.Prime := hpf.out
  obtain ⟨s2, hs2, hs2v, hs2z⟩ := fmul_ok hp.pos hs hs
  obtain ⟨t, ht, htv, htz⟩ := fsub_ok hp.pos hs2v hx1
  obtain ⟨x3, hx3, hx3v, hx3z⟩ := fsub_ok hp.pos htv hx2
  obtain ⟨d, hd, hdv, hdz⟩ := fsub_ok hp.pos hx1 hx3v
  obtain ⟨sd, hsd, hsdv, hsdz⟩ := fmul_ok hp.pos hs hdv
  obtain ⟨y3, hy3, hy3v, hy3z⟩ := fsub_ok hp.pos hsdv hy1
  have ha1 : (Wc p A B).a₁ = 0 := rfl
  have ha2 : (Wc p A B).a₂ = 0 := rfl
  have ha3 : (Wc p A B).a₃ = 0 := rfl
  have hzx3 : toZ p x3 = (Wc p A B).addX (toZ p x1) (toZ p x2)
      ((Wc p A B).slope (toZ p x1) (toZ p x2) (toZ p y1) (toZ p y2)) := by
    rw [hx3z, htz, hs2z, hsz]
    simp only [WeierstrassCurve.Affine.addX, ha1, ha2]
    ring
  have hzy3 : toZ p y3 = (Wc p A B).addY (toZ p x1) (toZ p x2) (toZ p y1)
      ((Wc p A B).slope (toZ p x1) (toZ p x2) (toZ p y1) (toZ p y2)) := by
    rw [hy3z, hsdz, hdz, hsz, hzx3]
    simp only [WeierstrassCurve.Affine.addY, WeierstrassCurve.Affine.negAddY,
      WeierstrassCurve.Affine.negY, WeierstrassCurve.Affine.addX, ha1, ha2, ha3]
    ring
  have heqW : (Wc p A B).Equation (toZ p x3) (toZ p y3) := by
    rw [hzx3, hzy3]
    exact WeierstrassCurve.Affine.equation_add
      ((Wc_equation_iff p A B _ _).mpr e1) ((Wc_equation_iff p A B _ _).mpr e2) hxy
  have heq3 : toZ p y3 ^ 2 = toZ p x3 ^ 3 + toZ p A * toZ p x3 + toZ p B :=
    (Wc_equation_iff p A B _ _).mp heqW
  refine ⟨x3, y3, ?_, hx3v, hy3v, hzx3, hzy3, heq3⟩
  simp only [Point.addCoords, hs2, ht, hx3, hd, hsd, hy3, fres, RRes.mapErr_ok,
    RRes.bind_ok]
  exact (Point.new_affine hp.pos hA hB hx3v hy3v).1 heq3

/-- The slope-and-chord part of point addition on two valid affine points
that are not an inverse pair: it succeeds and produces Mathlib's
addition coordinates. -/
theorem addSlopeCase_spec {p : ℕ} [hpf : Fact p.Prime] {A B x1 y1 x2 y2 : FieldElement}
    (hA : A.Valid p) (hB : B.Valid p)
    (hx1 : x1.Valid p) (hy1 : y1.Valid p) (hx2 : x2.Valid p) (hy2 : y2.Valid p)
    (e1 : toZ p y1 ^ 2 = toZ p x1 ^ 3 + toZ p A * toZ p x1 + toZ p B)
    (e2 : toZ p y2 ^ 2 = toZ p x2 ^ 3 + toZ p A * toZ p x2 + toZ p B)
    (hxy : toZ p x1 = toZ p x2 → toZ p y1 ≠ -toZ p y2) :
    ∃ x3 y3 : FieldElement,
      Point.addSlopeCase x1 y1 x2 y2 A B = .ok ⟨some x3, some y3, A, B⟩ ∧
      x3.Valid p ∧ y3.Valid p ∧
      toZ p x3 = (Wc p A B).addX (toZ p x1) (toZ p x2)
        ((Wc p A B).slope (toZ p x1) (toZ p x2) (toZ p y1) (toZ p y2)) ∧
      toZ p y3 = (Wc p A B).addY (toZ p x1) (toZ p x2) (toZ p y1)
        ((Wc p A B).slope (toZ p x1) (toZ p x2) (toZ p y1) (toZ p y2)) ∧
      toZ p y3 ^ 2 = toZ p x3 ^ 3 + toZ p A * toZ p x3 + toZ p B := by
  have hp : p.Prime := hpf.out
  have hxyW : toZ p x1 = toZ p x2 →
      toZ p y1 ≠ (Wc p A B).negY (toZ p x2) (toZ p y2) := by
    intro h
    rw [Wc_negY]
    exact hxy h
  by_cases hxs : x1 = x2
  · -- tangent (doubling) branch
    have hzx : toZ p x1 = toZ p x2 := by rw [hxs]
    have hny : toZ p y1 ≠ -toZ p y2 := hxy hzx
    have h9 : toZ p y1 ^ 2 = toZ p y2 ^ 2 := by rw [e1, e2, hzx]
    have h10 : (toZ p y1 - toZ p y2) * (toZ p y1 + toZ p y2) = 0 := by
      linear_combination h9
    have hyy : y1 = y2 := by
      rcases mul_eq_zero.mp h10 with h | h
      · exact toZ_inj hp.pos hy1 hy2 (sub_eq_zero.mp h)
      · exact absurd (eq_neg_of_add_eq_zero_left h) hny
    subst hxs
    subst hyy
    unfold Point.addSlopeCase
    rw [if_pos ⟨rfl, rfl⟩]
    obtain ⟨xx, hxx, hxxv, hxxz⟩ := fmul_ok hp.pos hx1 hx1
    have h3 : FieldElement.new 3 x1.prime = .ok ⟨3 % (p : Int), (p : Int)⟩ := by
      rw [hx1.1]
      exact FieldElement.new_ok 3 _ (by exact_mod_cast hp.pos)
    have h3v : FieldElement.Valid p ⟨3 % (p : Int), (p : Int)⟩ :=
      FieldElement.new_valid 3 p hp.pos
    have h3z : toZ p ⟨3 % (p : Int), (p : Int)⟩ = 3 := by
      show ((3 % (p : Int) : Int) : ZMod p) = 3
      rw [intCast_emod_eq]
      norm_num
    obtain ⟨t3, ht3, ht3v, ht3z⟩ := fmul_ok hp.pos hxxv h3v
    obtain ⟨num, hnum, hnumv, hnumz⟩ := fadd_ok hp.pos ht3v hA
    obtain ⟨den, hden, hdenv, hdenz⟩ := fadd_ok hp.pos hy1 hy1
    have hdennz : den.value ≠ 0 := by
      intro h0
      have h1 : toZ p den = 0 := (toZ_eq_zero_iff hp.pos hdenv).mpr h0
      rw [hdenz] at h1
      exact hny (eq_neg_of_add_eq_zero_left h1)
    obtain ⟨s, hs, hsv, hsz0⟩ := fdiv_ok hp hnumv hdenv hdennz
    have hsz : toZ p s =
        (Wc p A B).slope (toZ p x1) (toZ p x1) (toZ p y1) (toZ p y1) := by
      rw [hsz0, hnumz, ht3z, hxxz, hdenz, h3z]
      rw [WeierstrassCurve.Affine.slope_of_Y_ne rfl (hxyW rfl)]
      have ha1 : (Wc p A B).a₁ = 0 := rfl
      have ha2 : (Wc p A B).a₂ = 0 := rfl
      have ha4 : (Wc p A B).a₄ = toZ p A := rfl
      rw [ha1, ha2, ha4, Wc_negY, div_eq_mul_inv]
      congr 1
      · ring
      · congr 1
        ring
    simp only [hxx, h3, ht3, hnum, hden, hs, fres, RRes.mapErr_ok, RRes.bind_ok]
    exact addCoords_spec hA hB hx1 hy1 hx1 hy1 hsv e1 e1 hxyW hsz
  · -- secant (chord) branch
    have hzx : toZ p x1 ≠ toZ p x2 := fun h => hxs (toZ_inj hp.pos hx1 hx2 h)
    unfold Point.addSlopeCase
    rw [if_neg (fun h => hxs h.1)]
    obtain ⟨dy, hdy, hdyv, hdyz⟩ := fsub_ok hp.pos hy2 hy1
    obtain ⟨dx, hdx, hdxv, hdxz⟩ := fsub_ok hp.pos hx2 hx1
    have hdxnz : dx.value ≠ 0 := by
      intro h0
      have h1 : toZ p dx = 0 := (toZ_eq_zero_iff hp.pos hdxv).mpr h0
      rw [hdxz] at h1
      exact hzx (sub_eq_zero.mp h1).symm
    obtain ⟨s, hs, hsv, hsz0⟩ := fdiv_ok hp hdyv hdxv hdxnz
    have hsz : toZ p s =
        (Wc p A B).slope (toZ p x1) (toZ p x2) (toZ p y1) (toZ p y2) := by
      rw [hsz0, hdyz, hdxz, WeierstrassCurve.Affine.slope_of_X_ne hzx]
      rw [← div_eq_mul_inv, ← neg_div_neg_eq, neg_sub, neg_sub]
    simp only [hdy, hdx, hs, fres, RRes.mapErr_ok, RRes.bind_ok]
    exact addCoords_spec hA hB hx1 hy1 hx2 hy2 hsv e1 e2 hxyW hsz

/-- `impl Add for Point` with the left operand at infinity (both points
carrying the same curve): identity absorption. -/
theorem add_inf_left {A B : FieldElement} {P Q : Point}
    (hPa : P.a = A) (hPb : P.b = B) (hQa : Q.a = A) (hQb : Q.b = B)
    (hx : P.x = none) (hy : P.y = none) : Point.add P Q = .ok Q := by
  unfold Point.add
  rw [if_neg (by simp [hPa, hPb, hQa, hQb]), if_pos (by simp [Point.isInf, hx, hy])]

/-- `impl Add for Point` with the right operand at infinity and the left one
not at infinity. -/
theorem add_inf_right {A B : FieldElement} {P Q : Point}
    (hPa : P.a = A) (hPb : P.b = B) (hQa : Q.a = A) (hQb : Q.b = B)
    (hx : Q.x = none) (hy : Q.y = none) (hni : ¬P.isInf = true) :
    Point.add P Q = .ok P := by
  unfold Point.add
  rw [if_neg (by simp [hPa, hPb, hQa, hQb]), if_neg hni,
    if_pos (by simp [Point.isInf, hx, hy])]

/-- `impl Add for Point` on two valid affine points of the same curve over a
prime field: either the operands are an inverse pair and the result is the
point at infinity, or the result is the affine point whose coordinates are
Mathlib's `addX`/`addY` at Mathlib's `slope`, valid and on the curve. -/
theorem add_affine_spec {p : ℕ} [hpf : Fact p.Prime] {A B : FieldElement}
    (hA : A.Valid p) (hB : B.Valid p) {P Q : Point}
    (hP : P.Valid p A B) (hQ : Q.Valid p A B)
    {x1 y1 x2 y2 : FieldElement}
    (hPx : P.x = some x1) (hPy : P.y = some y1)
    (hQx : Q.x = some x2) (hQy : Q.y = some y2) :
    (toZ p x1 = toZ p x2 ∧ toZ p y1 = (Wc p A B).negY (toZ p x2) (toZ p y2) ∧
      Point.add P Q = .ok ⟨none, none, A, B⟩) ∨
    ((toZ p x1 = toZ p x2 → toZ p y1 ≠ (Wc p A B).negY (toZ p x2) (toZ p y2)) ∧
      ∃ x3 y3 : FieldElement, Point.add P Q = .ok ⟨some x3, some y3, A, B⟩ ∧
        x3.Valid p ∧ y3.Valid p ∧
        toZ p x3 = (Wc p A B).addX (toZ p x1) (toZ p x2)
          ((Wc p A B).slope (toZ p x1) (toZ p x2) (toZ p y1) (toZ p y2)) ∧
        toZ p y3 = (Wc p A B).addY (toZ p x1) (toZ p x2) (toZ p y1)
          ((Wc p A B).slope (toZ p x1) (toZ p x2) (toZ p y1) (toZ p y2)) ∧
        toZ p y3 ^ 2 = toZ p x3 ^ 3 + toZ p A * toZ p x3 + toZ p B) := by
  have hp : p.Prime := hpf.out
  obtain ⟨hx1v, hy1v, e1⟩ := hP.affine hPx hPy
  obtain ⟨hx2v, hy2v, e2⟩ := hQ.affine hQx hQy
  obtain ⟨hPa, hPb, -⟩ := hP
  obtain ⟨hQa, hQb, -⟩ := hQ
  cases P with
  | mk Px Py Pa Pb =>
    cases Q with
    | mk Qx Qy Qa Qb =>
      simp only at hPx hPy hQx hQy hPa hPb hQa hQb
      subst hPx hPy hQx hQy hPa hPb hQa hQb
      unfold Point.add
      rw [if_neg (by simp), if_neg (by simp [Point.isInf]),
        if_neg (by simp [Point.isInf])]
      dsimp only
      obtain ⟨ny2, hny2, hny2v, hny2z⟩ := fneg_ok hp.pos hy2v
      by_cases hxs : x1 = x2
      · rw [if_pos hxs]
        simp only [fres, hny2, RRes.mapErr_ok, RRes.bind_ok]
        by_cases hys : y1 = ny2
        · left
          refine ⟨by rw [hxs], ?_, by rw [if_pos hys]; rfl⟩
          rw [Wc_negY, hys, hny2z]
        · right
          have hnyz : toZ p y1 ≠ -toZ p y2 := by
            intro h
            exact hys (toZ_inj hp.pos hy1v hny2v (by rw [h, hny2z]))
          refine ⟨fun _ => by rw [Wc_negY]; exact hnyz, ?_⟩
          rw [if_neg hys]
          exact addSlopeCase_spec hA hB hx1v hy1v hx2v hy2v e1 e2 fun _ => hnyz
      · rw [if_neg hxs]
        right
        have hzx : toZ p x1 ≠ toZ p x2 := fun h => hxs (toZ_inj hp.pos hx1v hx2v h)
        refine ⟨fun h => absurd h hzx, ?_⟩
        exact addSlopeCase_spec hA hB hx1v hy1v hx2v hy2v e1 e2
          fun h => absurd h hzx

/-! ## Claim C1 -/

/-- **C1**: adding two valid points of the same curve over a prime modulus
always succeeds, and the result is again a valid point of that curve — in
particular the final `Point::new` validation never fails with `NotOnCurve`. -/
theorem C1_add_closed {p : ℕ} (hp : p.Prime) {A B : FieldElement}
    (hA : A.Valid p) (hB : B.Valid p) {P Q : Point}
    (hP : P.Valid p A B) (hQ : Q.Valid p A B) :
    ∃ R, Point.add P Q = .ok R ∧ R.Valid p A B := by
  haveI : Fact p.Prime := ⟨hp⟩
  rcases h2 : hP.2.2 with ⟨hPx, hPy⟩ | ⟨x1, y1, hPx, hPy, hx1v, hy1v, e1⟩
  · exact ⟨Q, add_inf_left hP.1 hP.2.1 hQ.1 hQ.2.1 hPx hPy, hQ⟩
  · rcases h3 : hQ.2.2 with ⟨hQx, hQy⟩ | ⟨x2, y2, hQx, hQy, hx2v, hy2v, e2⟩
    · refine ⟨P, add_inf_right hP.1 hP.2.1 hQ.1 hQ.2.1 hQx hQy ?_, hP⟩
      simp [Point.isInf, hPx]
    · rcases add_affine_spec hA hB hP hQ hPx hPy hQx hQy with
        ⟨-, -, hok⟩ | ⟨-, x3, y3, hok, hx3v, hy3v, -, -, heq⟩
      · exact ⟨⟨none, none, A, B⟩, hok, rfl, rfl, Or.inl ⟨rfl, rfl⟩⟩
      · exact ⟨⟨some x3, some y3, A, B⟩, hok, rfl, rfl,
          Or.inr ⟨x3, y3, rfl, rfl, hx3v, hy3v, heq⟩⟩

/-- Witness for C1: `(192,105) + (17,56)` on `y² = x³ + 7` over `F₂₂₃`
succeeds with a valid result. -/
theorem C1_witness :
    ∃ R, Point.add ⟨some ⟨192, 223⟩, some ⟨105, 223⟩, ⟨0, 223⟩, ⟨7, 223⟩⟩
        ⟨some ⟨17, 223⟩, some ⟨56, 223⟩, ⟨0, 223⟩, ⟨7, 223⟩⟩ = .ok R ∧
      R.Valid 223 ⟨0, 223⟩ ⟨7, 223⟩ :=
  C1_add_closed (p := 223) (by norm_num)
    (by constructor <;> norm_num) (by constructor <;> norm_num)
    ⟨rfl, rfl, Or.inr ⟨⟨192, 223⟩, ⟨105, 223⟩, rfl, rfl,
      by constructor <;> norm_num, by constructor <;> norm_num, by decide⟩⟩
    ⟨rfl, rfl, Or.inr ⟨⟨17, 223⟩, ⟨56, 223⟩, rfl, rfl,
      by constructor <;> norm_num, by constructor <;> norm_num, by decide⟩⟩

/-- Adding an affine point to itself when the field negation of its
`y`-coordinate is itself (so `y1 == -y2` holds structurally): the
inverse-pair branch fires and the result is the point at infinity. -/
theorem add_self_inf {A B : FieldElement} {P : Point}
    (hPa : P.a = A) (hPb : P.b = B) {xe ye : FieldElement}
    (hx : P.x = some xe) (hy : P.y = some ye) (hneg : fneg ye = .ok ye) :
    Point.add P P = .ok ⟨none, none, A, B⟩ := by
  cases P with
  | mk Px Py Pa Pb =>
    simp only at hx hy hPa hPb
    subst hx hy hPa hPb
    unfold Point.add
    rw [if_neg (by simp)]
    rw [if_neg (by simp [Point.isInf])]
    rw [if_neg (by simp [Point.isInf])]
    simp only [fres, hneg, RRes.mapErr_ok, RRes.bind_ok, if_pos rfl]
    rfl

/-! ## Claim C7 -/

/-- **C7**: adding a valid affine point with `y = 0` (a point of order 2) to
itself takes the inverse-pair branch — `x1 == x2` and `y1 == -y2` — and
returns the point at infinity; the doubling slope (and its division by
`2y = 0`) is never computed. -/
theorem C7_order_two {p : ℕ} (hp : 0 < p) {A B : FieldElement} {P : Point}
    (hP : P.Valid p A B) {xe ye : FieldElement}
    (hx : P.x = some xe) (hy : P.y = some ye) (hy0 : ye.value = 0) :
    Point.add P P = .ok ⟨none, none, A, B⟩ := by
  have hp' : (0 : Int) < (p : Int) := by exact_mod_cast hp
  obtain ⟨hxv, hyv, heq⟩ := hP.affine hx hy
  have hyeq : ye = ⟨0, (p : Int)⟩ := by
    obtain ⟨h1, _, _⟩ := hyv
    cases ye
    simp only at hy0 h1
    rw [hy0, h1]
  have hneg : fneg ye = .ok ye := by
    rw [hyeq]
    unfold fneg
    show (FieldElement.new (-(0 : Int)) (p : Int)).expectR = _
    rw [neg_zero, FieldElement.new_ok 0 _ hp', Int.zero_emod]
    rfl
  exact add_self_inf hP.1 hP.2.1 hx hy hneg

/-- Witness for C7: the order-2 point `(4, 0)` on `y² = x³ + 1` over `F₅`
doubles to infinity. -/
theorem C7_witness :
    Point.add ⟨some ⟨4, 5⟩, some ⟨0, 5⟩, ⟨0, 5⟩, ⟨1, 5⟩⟩
        ⟨some ⟨4, 5⟩, some ⟨0, 5⟩, ⟨0, 5⟩, ⟨1, 5⟩⟩ =
      .ok ⟨none, none, ⟨0, 5⟩, ⟨1, 5⟩⟩ :=
  C7_order_two (p := 5) (by norm_num)
    ⟨rfl, rfl, Or.inr ⟨⟨4, 5⟩, ⟨0, 5⟩, rfl, rfl, by constructor <;> norm_num,
      by constructor <;> norm_num, by decide⟩⟩
    rfl rfl rfl

/-! ## Claim C5 -/

/-- **C5**: `FieldElement` construction fails with `InvalidElement` exactly
when the modulus is non-positive; for a positive modulus it succeeds, and the
stored value is `((v % p) + p) % p` (truncating `%`), which lies in `[0, p)`
and is congruent to `v` modulo `p`. -/
theorem C5_construct_normalizes (v q : Int) :
    (FieldElement.new v q = .err .InvalidElement ↔ q ≤ 0) ∧
    (0 < q → ∃ e : FieldElement, FieldElement.new v q = .ok e ∧
      e.value = (v.tmod q + q).tmod q ∧ e.prime = q ∧
      0 ≤ e.value ∧ e.value < q ∧ q ∣ (v - e.value)) := by
  constructor
  · constructor
    · intro h
      by_contra hq
      simp only [FieldElement.new, if_neg hq] at h
      exact absurd h (by simp)
    · intro hq
      simp only [FieldElement.new, if_pos hq]
  · intro hq
    refine ⟨⟨(v.tmod q + q).tmod q, q⟩, ?_, rfl, rfl, ?_, ?_, ?_⟩
    · simp only [FieldElement.new, if_neg (by omega : ¬q ≤ 0)]
    · rw [norm_eq_emod v q hq]
      exact Int.emod_nonneg v (by omega)
    · rw [norm_eq_emod v q hq]
      exact Int.emod_lt_of_pos v hq
    · show q ∣ v - (v.tmod q + q).tmod q
      rw [norm_eq_emod v q hq]
      have h9 := Int.emod_add_ediv v q
      exact ⟨v / q, by omega⟩

/-- Witness for C5 at `v = -7`, `q = 5`: construction succeeds and stores
`3`. -/
theorem C5_witness : ∃ e : FieldElement, FieldElement.new (-7) 5 = .ok e ∧
    e.value = 3 ∧ 0 ≤ e.value ∧ e.value < 5 := by
  obtain ⟨e, h1, h2, h3, h4, h5, h6⟩ := (C5_construct_normalizes (-7) 5).2 (by norm_num)
  exact ⟨e, h1, by rw [h2]; decide, h4, h5⟩

/-! ## Claim C6 -/

/-- **C6 (counterexample)**: on operands with different moduli, the four
binary field operators do not return the typed `MismatchedFields` error —
they panic (Rust `assert_eq!`), the error variant is never constructed. -/
theorem C6_counterexample :
    (⟨1, 5⟩ : FieldElement).prime ≠ (⟨1, 7⟩ : FieldElement).prime ∧
    fadd ⟨1, 5⟩ ⟨1, 7⟩ = .panics ∧
    fadd ⟨1, 5⟩ ⟨1, 7⟩ ≠ .err .MismatchedFields ∧
    fsub ⟨1, 5⟩ ⟨1, 7⟩ = .panics ∧
    fsub ⟨1, 5⟩ ⟨1, 7⟩ ≠ .err .MismatchedFields ∧
    fmul ⟨1, 5⟩ ⟨1, 7⟩ = .panics ∧
    fmul ⟨1, 5⟩ ⟨1, 7⟩ ≠ .err .MismatchedFields ∧
    fdiv ⟨1, 5⟩ ⟨1, 7⟩ = .panics ∧
    fdiv ⟨1, 5⟩ ⟨1, 7⟩ ≠ .err .MismatchedFields := by
  decide

/-- **C6 (amended)**: every binary field operation on operands with
different moduli panics (asserts) rather than returning a typed error; the
`MismatchedFields` variant exists but is never produced by these operators. -/
theorem C6_amended (a b : FieldElement) (h : a.prime ≠ b.prime) :
    fadd a b = .panics ∧ fsub a b = .panics ∧
    fmul a b = .panics ∧ fdiv a b = .panics := by
  simp [fadd, fsub, fmul, fdiv, h]

/-- Witness for the amended C6 at moduli `5` and `7`. -/
theorem C6_amended_witness :
    fadd ⟨1, 5⟩ ⟨1, 7⟩ = .panics ∧ fsub ⟨1, 5⟩ ⟨1, 7⟩ = .panics ∧
    fmul ⟨1, 5⟩ ⟨1, 7⟩ = .panics ∧ fdiv ⟨1, 5⟩ ⟨1, 7⟩ = .panics :=
  C6_amended ⟨1, 5⟩ ⟨1, 7⟩ (by decide)

/-! ## Claim C9 -/

/-- **C9**: scalar multiplication by any non-positive scalar (zero or
negative) returns the point at infinity carrying the operand's curve
coefficients, without error: the double-and-add loop runs zero iterations. -/
theorem C9_scalar_nonpos (P : Point) (k : Int) (hk : k ≤ 0) :
    Point.mulScalar P k = .ok ⟨none, none, P.a, P.b⟩ := by
  unfold Point.mulScalar
  have h1 : Point.new none none P.a P.b = .ok ⟨none, none, P.a, P.b⟩ := rfl
  rw [h1, RRes.bind_ok, Point.mulLoop]
  rw [dif_neg (by omega)]

/-- Witness for C9 at a concrete point and `k = -3`. -/
theorem C9_witness :
    Point.mulScalar ⟨some ⟨2, 5⟩, some ⟨2, 5⟩, ⟨0, 5⟩, ⟨1, 5⟩⟩ (-3) =
      .ok ⟨none, none, ⟨0, 5⟩, ⟨1, 5⟩⟩ :=
  C9_scalar_nonpos ⟨some ⟨2, 5⟩, some ⟨2, 5⟩, ⟨0, 5⟩, ⟨1, 5⟩⟩ (-3) (by norm_num)

/-! ## Claim C10 -/

/-- **C10**: field multiplication computes its intermediate product in
64-bit signed machine arithmetic. Whenever `(p-1)·(p-1) ≤ i64::MAX`, the
wrapped computation agrees with the idealized one: the result is the exact
mathematical product modulo `p`, normalized into `[0, p)`. The bound is
necessary: at modulus `3037000501` (whose largest residue squares past
`i64::MAX`) the wrapped and exact products differ. -/
theorem C10_mul_64bit :
    (∀ (p : Int) (a b : FieldElement), a.prime = p → b.prime = p →
      0 ≤ a.value → a.value < p → 0 ≤ b.value → b.value < p →
      (p - 1) * (p - 1) ≤ 2 ^ 63 - 1 →
      fmulWrap a b = fmul a b ∧
      ∃ c, fmulWrap a b = .ok c ∧ c.value = (a.value * b.value) % p ∧
        0 ≤ c.value ∧ c.value < p) ∧
    ¬((3037000501 - 1) * (3037000501 - 1) ≤ (2 : Int) ^ 63 - 1) ∧
    fmulWrap ⟨3037000500, 3037000501⟩ ⟨3037000500, 3037000501⟩ ≠
      fmul ⟨3037000500, 3037000501⟩ ⟨3037000500, 3037000501⟩ := by
  refine ⟨?_, by norm_num, by decide⟩
  intro p a b hpa hpb ha0 hap hb0 hbp hbound
  have hp0 : 0 < p := by omega
  have hprod0 : 0 ≤ a.value * b.value := mul_nonneg ha0 hb0
  have hprodle : a.value * b.value ≤ (p - 1) * (p - 1) :=
    mul_le_mul (by omega) (by omega) hb0 (by omega)
  have hw : wrap64 (a.value * b.value) = a.value * b.value :=
    wrap64_eq_self (by omega) (by omega)
  have hq : a.prime = b.prime := by rw [hpa, hpb]
  constructor
  · unfold fmulWrap fmul
    rw [hw]
  · refine ⟨⟨(a.value * b.value) % p, p⟩, ?_, rfl, ?_, ?_⟩
    · unfold fmulWrap
      rw [if_pos hq, hw, hpa, FieldElement.new_ok _ _ hp0, tmod_emod]
      rfl
    · exact Int.emod_nonneg _ (by omega)
    · exact Int.emod_lt_of_pos _ hp0
/-- Witness for C10's universal part at modulus `13`. -/
theorem C10_witness :
    fmulWrap ⟨3, 13⟩ ⟨12, 13⟩ = fmul ⟨3, 13⟩ ⟨12, 13⟩ ∧
    ∃ c, fmulWrap ⟨3, 13⟩ ⟨12, 13⟩ = .ok c ∧ c.value = (3 * 12 : Int) % 13 ∧
      0 ≤ c.value ∧ c.value < 13 :=
  C10_mul_64bit.1 13 ⟨3, 13⟩ ⟨12, 13⟩ rfl rfl (by norm_num) (by norm_num)
    (by norm_num) (by norm_num) (by norm_num)

/-! ## Claim C4 -/

/-- **C4**: for a valid element of a prime field: `inv` fails
`DivisionByZero` iff the value is zero; on a non-zero value it fails
`InvalidElement` exactly when the extended-Euclid gcd of
`(modulus, value)` is not `1` (which never happens for a prime modulus),
and otherwise returns a value normalized into `[0, p)` satisfying
`x * inv(x) = 1`. -/
theorem C4_inverse {p : ℕ} (hp : p.Prime) (a : FieldElement) (ha : a.Valid p) :
    (finv a = .err .DivisionByZero ↔ a.value = 0) ∧
    (a.value ≠ 0 →
      (finv a = .err .InvalidElement ↔ Int.gcd a.prime a.value ≠ 1) ∧
      ∃ c, finv a = .ok c ∧ 0 ≤ c.value ∧ c.value < (p : Int) ∧
        fmul a c = .ok ⟨1, (p : Int)⟩) := by
  have hone : FieldElement.Valid p ⟨1, (p : Int)⟩ := by
    refine ⟨rfl, by norm_num, ?_⟩
    show (1 : Int) < (p : Int)
    exact_mod_cast hp.one_lt
  constructor
  · constructor
    · intro h
      by_contra hnz
      obtain ⟨c, hc, _, _⟩ := finv_ok hp ha hnz
      rw [hc] at h
      exact absurd h (by simp)
    · intro h
      simp [finv, h]
  · intro hnz
    obtain ⟨c, hc, hcv, hinv⟩ := finv_ok hp ha hnz
    have hgcd : Int.gcd a.prime a.value = 1 := by
      obtain ⟨g, hg⟩ : ∃ g, Int.gcd a.prime a.value = g := ⟨_, rfl⟩
      rw [hg]
      have hd1 : (g : Int) ∣ a.prime := hg ▸ Int.gcd_dvd_left
      have hd2 : (g : Int) ∣ a.value := hg ▸ Int.gcd_dvd_right
      rw [ha.1] at hd1
      have hd1' : g ∣ p := by exact_mod_cast hd1
      have hvpos : 0 < a.value := lt_of_le_of_ne ha.2.1 (Ne.symm hnz)
      have hle : (g : Int) ≤ a.value := Int.le_of_dvd hvpos hd2
      have hlt : a.value < (p : Int) := ha.2.2
      rcases hp.eq_one_or_self_of_dvd _ hd1' with h1 | hq
      · exact h1
      · omega
    refine ⟨⟨fun h => ?_, fun h => absurd hgcd h⟩, ?_⟩
    · rw [hc] at h
      exact absurd h (by simp)
    obtain ⟨d, hd, hdv, hdz⟩ := fmul_ok hp.pos ha hcv
    have hdone : d = ⟨1, (p : Int)⟩ := by
      refine toZ_inj hp.pos hdv hone ?_
      rw [hdz]
      have h3 : toZ p a * toZ p c = 1 := by
        rw [mul_comm]
        exact hinv
      rw [h3]
      show (1 : ZMod p) = ((1 : Int) : ZMod p)
      norm_num
    exact ⟨c, hc, hcv.2.1, hcv.2.2, by rw [hd, hdone]⟩

/-- Witness for C4 at `x = 2` over `F₁₃`: the inverse is returned and
multiplies back to `1`. -/
theorem C4_witness :
    (finv ⟨2, 13⟩ = .err .DivisionByZero ↔ (⟨2, 13⟩ : FieldElement).value = 0) ∧
    ∃ c, finv ⟨2, 13⟩ = .ok c ∧ 0 ≤ c.value ∧ c.value < (13 : Int) ∧
      fmul ⟨2, 13⟩ c = .ok ⟨1, 13⟩ := by
  have h := C4_inverse (p := 13) (by norm_num) ⟨2, 13⟩ ⟨by norm_num, by norm_num, by norm_num⟩
  exact ⟨h.1, by exact_mod_cast (h.2 (by norm_num)).2⟩


/-! ## Interpretation of points in the Mathlib group -/

/-- Two `some` points with propositionally equal coordinates are equal. -/
theorem Wpoint_some_congr {p : ℕ} [hpf : Fact p.Prime] {A B : FieldElement}
    {x1 y1 x2 y2 : ZMod p} (hx : x1 = x2) (hy : y1 = y2)
    (h1 : (Wc p A B).Nonsingular x1 y1) (h2 : (Wc p A B).Nonsingular x2 y2) :
    (WeierstrassCurve.Affine.Point.some h1 : (Wc p A B).Point) = .some h2 := by
  subst hx
  subst hy
  rfl

theorem toW_inf {p : ℕ} {A B : FieldElement} (P : Point)
    (h : ∀ xe ye, P.x = some xe → P.y = some ye →
      (Wc p A B).Nonsingular (toZ p xe) (toZ p ye))
    (hx : P.x = none) (hy : P.y = none) : toW p A B P h = 0 := by
  cases P with
  | mk Px Py Pa Pb =>
    simp only at hx hy
    subst hx hy
    rfl

theorem toW_affine {p : ℕ} {A B : FieldElement} (P : Point)
    (h : ∀ xe ye, P.x = some xe → P.y = some ye →
      (Wc p A B).Nonsingular (toZ p xe) (toZ p ye))
    {xe ye : FieldElement} (hx : P.x = some xe) (hy : P.y = some ye) :
    toW p A B P h = .some (h xe ye hx hy) := by
  cases P with
  | mk Px Py Pa Pb =>
    simp only at hx hy
    subst hx hy
    rfl

/-- For a valid point, the interpretation is the group zero exactly for the
point at infinity (`is_infinity`). -/
theorem toW_eq_zero_iff {p : ℕ} [hpf : Fact p.Prime] {A B : FieldElement}
    (hΔ : (Wc p A B).Δ ≠ 0) {P : Point} (hP : P.Valid p A B) :
    toW p A B P (hP.ns hΔ) = 0 ↔ P.isInf = true := by
  rcases hP.2.2 with ⟨hx, hy⟩ | ⟨xe, ye, hx, hy, -, -, -⟩
  · rw [toW_inf P _ hx hy]
    simp [Point.isInf, hx, hy]
  · rw [toW_affine P _ hx hy]
    simp [Point.isInf, hx, WeierstrassCurve.Affine.Point.some_ne_zero]

/-- `impl Add for Point` is sound for the Mathlib group law on valid points. -/
theorem add_toW {p : ℕ} [hpf : Fact p.Prime] {A B : FieldElement}
    (hA : A.Valid p) (hB : B.Valid p) (hΔ : (Wc p A B).Δ ≠ 0)
    {P Q : Point} (hP : P.Valid p A B) (hQ : Q.Valid p A B) :
    ∃ R, Point.add P Q = .ok R ∧ ∃ hR : R.Valid p A B,
      toW p A B R (hR.ns hΔ) =
        toW p A B P (hP.ns hΔ) + toW p A B Q (hQ.ns hΔ) := by
  have hp : p.Prime := hpf.out
  rcases h2 : hP.2.2 with ⟨hPx, hPy⟩ | ⟨x1, y1, hPx, hPy, hx1v, hy1v, e1⟩
  · refine ⟨Q, add_inf_left hP.1 hP.2.1 hQ.1 hQ.2.1 hPx hPy, hQ, ?_⟩
    rw [toW_inf P _ hPx hPy, zero_add]
  · rcases h3 : hQ.2.2 with ⟨hQx, hQy⟩ | ⟨x2, y2, hQx, hQy, hx2v, hy2v, e2⟩
    · refine ⟨P, add_inf_right hP.1 hP.2.1 hQ.1 hQ.2.1 hQx hQy
        (by simp [Point.isInf, hPx]), hP, ?_⟩
      rw [toW_inf Q _ hQx hQy, add_zero]
    · rcases add_affine_spec hA hB hP hQ hPx hPy hQx hQy with
        ⟨hzx, hzy, hok⟩ | ⟨hxy, x3, y3, hok, hx3v, hy3v, hzx3, hzy3, heq3⟩
      · have hRv : Point.Valid p A B ⟨none, none, A, B⟩ :=
          ⟨rfl, rfl, Or.inl ⟨rfl, rfl⟩⟩
        refine ⟨⟨none, none, A, B⟩, hok, hRv, ?_⟩
        rw [toW_inf _ _ rfl rfl, toW_affine P _ hPx hPy, toW_affine Q _ hQx hQy,
          WeierstrassCurve.Affine.Point.add_of_Y_eq hzx hzy]
      · have hRv : Point.Valid p A B ⟨some x3, some y3, A, B⟩ :=
          ⟨rfl, rfl, Or.inr ⟨x3, y3, rfl, rfl, hx3v, hy3v, heq3⟩⟩
        refine ⟨⟨some x3, some y3, A, B⟩, hok, hRv, ?_⟩
        rw [toW_affine _ _ rfl rfl, toW_affine P _ hPx hPy,
          toW_affine Q _ hQx hQy,
          WeierstrassCurve.Affine.Point.add_of_imp hxy]
        exact Wpoint_some_congr hzx3 hzy3 _ _

/-- `impl Neg for Point` is sound for the Mathlib group negation on valid
points. -/
theorem negP_toW {p : ℕ} [hpf : Fact p.Prime] {A B : FieldElement}
    (hΔ : (Wc p A B).Δ ≠ 0) {P : Point} (hP : P.Valid p A B) :
    ∃ R, Point.negP P = .ok R ∧ ∃ hR : R.Valid p A B,
      toW p A B R (hR.ns hΔ) = -toW p A B P (hP.ns hΔ) := by
  have hp : p.Prime := hpf.out
  rcases h2 : hP.2.2 with ⟨hPx, hPy⟩ | ⟨x1, y1, hPx, hPy, hx1v, hy1v, e1⟩
  · refine ⟨P, ?_, hP, ?_⟩
    · unfold Point.negP
      rw [if_pos (by simp [Point.isInf, hPx, hPy])]
    · rw [toW_inf P _ hPx hPy, neg_zero]
  · obtain ⟨ny, hny, hnyv, hnyz⟩ := fneg_ok hp.pos hy1v
    have heqn : toZ p ny ^ 2 = toZ p x1 ^ 3 + toZ p A * toZ p x1 + toZ p B := by
      rw [hnyz]
      rw [← e1]
      ring
    have hRv : Point.Valid p A B ⟨P.x, some ny, P.a, P.b⟩ := by
      rw [hP.1, hP.2.1, hPx]
      exact ⟨rfl, rfl, Or.inr ⟨x1, ny, rfl, rfl, hx1v, hnyv, heqn⟩⟩
    refine ⟨⟨P.x, some ny, P.a, P.b⟩, ?_, hRv, ?_⟩
    · unfold Point.negP
      rw [if_neg (by simp [Point.isInf, hPx]), hPy]
      simp only [fres, hny, RRes.mapErr_ok, RRes.bind_ok]
    · rw [toW_affine _ _ (show (⟨P.x, some ny, P.a, P.b⟩ : Point).x = some x1 by
          simp [hPx]) rfl,
        toW_affine P _ hPx hPy, WeierstrassCurve.Affine.Point.neg_some]
      exact Wpoint_some_congr rfl (by rw [hnyz, Wc_negY]) _ _


/-- The double-and-add loop is sound: on valid points it returns
`result + coef.toNat • current` (non-positive scalars contribute nothing). -/
theorem mulLoop_toW {p : ℕ} [hpf : Fact p.Prime] {A B : FieldElement}
    (hA : A.Valid p) (hB : B.Valid p) (hΔ : (Wc p A B).Δ ≠ 0) :
    ∀ (n : ℕ) (coef : Int), coef.toNat ≤ n →
      ∀ {cur res : Point} (hcur : cur.Valid p A B) (hres : res.Valid p A B),
      ∃ R, Point.mulLoop coef cur res = .ok R ∧ ∃ hR : R.Valid p A B,
        toW p A B R (hR.ns hΔ) =
          toW p A B res (hres.ns hΔ) +
            coef.toNat • toW p A B cur (hcur.ns hΔ) := by
  intro n
  induction n with
  | zero =>
    intro coef hle cur res hcur hres
    rw [Point.mulLoop, dif_neg (by omega)]
    refine ⟨res, rfl, hres, ?_⟩
    have h0 : coef.toNat = 0 := by omega
    rw [h0, zero_nsmul, add_zero]
  | succ n ih =>
    intro coef hle cur res hcur hres
    by_cases hc : 0 < coef
    · rw [Point.mulLoop, dif_pos hc]
      have ht2 : coef.tmod 2 = coef % 2 :=
        Int.tmod_eq_emod (le_of_lt hc) (by norm_num)
      have htd : coef.tdiv 2 = coef / 2 :=
        Int.tdiv_eq_ediv (le_of_lt hc) (by norm_num)
      have hstep : ∃ res2, (if coef.tmod 2 = 1 then Point.add res cur
          else .ok res) = .ok res2 ∧
          ∃ h2 : res2.Valid p A B, toW p A B res2 (h2.ns hΔ) =
            toW p A B res (hres.ns hΔ) +
              (coef.toNat % 2) • toW p A B cur (hcur.ns hΔ) := by
        by_cases hodd : coef.tmod 2 = 1
        · rw [if_pos hodd]
          obtain ⟨R2, hR2, hR2v, hR2w⟩ := add_toW hA hB hΔ hres hcur
          refine ⟨R2, hR2, hR2v, ?_⟩
          have hm : coef.toNat % 2 = 1 := by omega
          rw [hR2w, hm, one_nsmul]
        · rw [if_neg hodd]
          refine ⟨res, rfl, hres, ?_⟩
          have hm : coef.toNat % 2 = 0 := by omega
          rw [hm, zero_nsmul, add_zero]
      obtain ⟨res2, hres2eq, hres2v, hres2w⟩ := hstep
      rw [hres2eq, RRes.bind_ok]
      obtain ⟨cur2, hcur2, hcur2v, hcur2w⟩ := add_toW hA hB hΔ hcur hcur
      rw [hcur2, RRes.bind_ok]
      obtain ⟨R, hR, hRv, hRw⟩ := ih (coef.tdiv 2) (by omega) hcur2v hres2v
      refine ⟨R, hR, hRv, ?_⟩
      obtain ⟨a, ha⟩ : ∃ a, coef.toNat % 2 = a := ⟨_, rfl⟩
      obtain ⟨b, hb⟩ : ∃ b, (coef.tdiv 2).toNat = b := ⟨_, rfl⟩
      rw [ha] at hres2w
      rw [hb] at hRw
      rw [hRw, hres2w, hcur2w]
      rw [show coef.toNat = b + b + a from by omega]
      rw [nsmul_add, add_nsmul, add_nsmul]
      abel
    · rw [Point.mulLoop, dif_neg hc]
      refine ⟨res, rfl, hres, ?_⟩
      have h0 : coef.toNat = 0 := by omega
      rw [h0, zero_nsmul, add_zero]

/-- `impl Mul<i64> for Point` is sound: `P * k` computes `k.toNat • P` in the
Mathlib group (the identity for `k ≤ 0`). -/
theorem mulScalar_toW {p : ℕ} [hpf : Fact p.Prime] {A B : FieldElement}
    (hA : A.Valid p) (hB : B.Valid p) (hΔ : (Wc p A B).Δ ≠ 0)
    {P : Point} (hP : P.Valid p A B) (k : Int) :
    ∃ R, Point.mulScalar P k = .ok R ∧ ∃ hR : R.Valid p A B,
      toW p A B R (hR.ns hΔ) = k.toNat • toW p A B P (hP.ns hΔ) := by
  unfold Point.mulScalar
  have hinf : Point.new none none P.a P.b = .ok ⟨none, none, P.a, P.b⟩ := rfl
  rw [hinf, RRes.bind_ok]
  have hinfv : Point.Valid p A B ⟨none, none, P.a, P.b⟩ := by
    rw [hP.1, hP.2.1]
    exact ⟨rfl, rfl, Or.inl ⟨rfl, rfl⟩⟩
  obtain ⟨R, hR, hRv, hRw⟩ := mulLoop_toW hA hB hΔ k.toNat k le_rfl hP hinfv
  refine ⟨R, hR, hRv, ?_⟩
  rw [hRw, toW_inf _ _ rfl rfl, zero_add]

/-- Soundness of the brute-force order loop: if it reports success, the
final multiple of the base point is zero in the group and no intermediate
multiple (beyond those already accumulated) is. -/
theorem orderLoop_spec {p : ℕ} [hpf : Fact p.Prime] {A B : FieldElement}
    (hA : A.Valid p) (hB : B.Valid p) (hΔ : (Wc p A B).Δ ≠ 0)
    {pt : Point} (hpt : pt.Valid p A B) (bound : Int) :
    ∀ (N : ℕ) (n : Int), (bound + 1 - n).toNat ≤ N →
      ∀ {cur : Point} (hcur : cur.Valid p A B) (j : ℕ),
        toW p A B cur (hcur.ns hΔ) = j • toW p A B pt (hpt.ns hΔ) →
        ∀ m : Int, Curve.orderLoop pt bound cur n = .ok m →
          n < m ∧
          ((m - n).toNat + j) • toW p A B pt (hpt.ns hΔ) = 0 ∧
          ∀ i : ℕ, j < i → i < (m - n).toNat + j →
            i • toW p A B pt (hpt.ns hΔ) ≠ 0 := by
  intro N
  induction N with
  | zero =>
    intro n hle cur hcur j hj m hm
    rw [Curve.orderLoop, dif_neg (by omega)] at hm
    cases hm
  | succ N ih =>
    intro n hle cur hcur j hj m hm
    rw [Curve.orderLoop] at hm
    by_cases hnb : n ≤ bound
    · rw [dif_pos hnb] at hm
      obtain ⟨next, hnext, hnextv, hnextw⟩ := add_toW hA hB hΔ hcur hpt
      rw [hnext] at hm
      dsimp only at hm
      have hnextw1 : toW p A B next (hnextv.ns hΔ) =
          (j + 1) • toW p A B pt (hpt.ns hΔ) := by
        rw [hnextw, hj, add_nsmul, one_nsmul]
      by_cases hinf : next.isInf = true
      · rw [if_pos hinf] at hm
        have hm1 : m = n + 1 := by
          cases hm
          rfl
        subst hm1
        have hz : (1 + j) • toW p A B pt (hpt.ns hΔ) = 0 := by
          rw [add_comm 1 j, ← hnextw1]
          exact (toW_eq_zero_iff hΔ hnextv).mpr hinf
        refine ⟨by omega, ?_, ?_⟩
        · rw [show (n + 1 - n).toNat = 1 from by omega]
          exact hz
        · intro i hji hilt
          omega
      · rw [if_neg hinf] at hm
        obtain ⟨h1, h2, h3⟩ := ih (n + 1) (by omega) hnextv (j + 1) hnextw1 m hm
        have harith : (m - (n + 1)).toNat + (j + 1) = (m - n).toNat + j := by
          omega
        rw [harith] at h2 h3
        refine ⟨by omega, h2, ?_⟩
        intro i hji hilt
        by_cases hieq : i = j + 1
        · subst hieq
          rw [← hnextw1]
          intro h0
          exact hinf ((toW_eq_zero_iff hΔ hnextv).mp h0)
        · exact h3 i (by omega) hilt
    · rw [dif_neg hnb] at hm
      cases hm

/-- `Curve::point_order` soundness: a reported order `n` satisfies
`n ≥ 2`, `n.toNat • P = 0`, and no smaller multiple beyond the first
vanishes. -/
theorem pointOrder_spec {p : ℕ} [hpf : Fact p.Prime] {A B : FieldElement}
    (hA : A.Valid p) (hB : B.Valid p) (hΔ : (Wc p A B).Δ ≠ 0)
    {c : Curve} {pt : Point} (hpt : pt.Valid p A B) {m : Int}
    (hm : Curve.pointOrder c pt = .ok m) :
    1 < m ∧ m.toNat • toW p A B pt (hpt.ns hΔ) = 0 ∧
      ∀ i : ℕ, 1 < i → i < m.toNat → i • toW p A B pt (hpt.ns hΔ) ≠ 0 := by
  unfold Curve.pointOrder at hm
  obtain ⟨h1, h2, h3⟩ := orderLoop_spec hA hB hΔ hpt c.prime
    (c.prime + 1 - 1).toNat 1 le_rfl hpt 1 (one_nsmul _).symm m hm
  have harith : (m - 1).toNat + 1 = m.toNat := by omega
  rw [harith] at h2 h3
  exact ⟨h1, h2, h3⟩


/-! ## `Curve::new` success -/

/-- A successfully constructed curve: normalized valid coefficients and a
non-vanishing short-Weierstrass discriminant check `4a³ + 27b² ≠ 0` in
`ZMod p`. -/
theorem newC_spec {p : ℕ} (hp : 0 < p) {a0 b0 : Int} {cv : Curve}
    (hcv : Curve.newC a0 b0 (p : Int) = .ok cv) :
    cv.prime = (p : Int) ∧ cv.a.Valid p ∧ cv.b.Valid p ∧
      4 * toZ p cv.a ^ 3 + 27 * toZ p cv.b ^ 2 ≠ 0 := by
  have hp' : (0 : Int) < (p : Int) := by exact_mod_cast hp
  have hav := FieldElement.new_valid a0 p hp
  have hbv := FieldElement.new_valid b0 p hp
  have h4v := FieldElement.new_valid 4 p hp
  have h27v := FieldElement.new_valid 27 p hp
  obtain ⟨aa, haa, haav, haaz⟩ := fmul_ok hp hav hav
  obtain ⟨aaa, haaa, haaav, haaaz⟩ := fmul_ok hp haav hav
  obtain ⟨ac, hac, hacv, hacz⟩ := fmul_ok hp haaav h4v
  obtain ⟨bb, hbb, hbbv, hbbz⟩ := fmul_ok hp hbv hbv
  obtain ⟨bs, hbs, hbsv, hbsz⟩ := fmul_ok hp hbbv h27v
  obtain ⟨disc, hdisc, hdiscv, hdiscz⟩ := fadd_ok hp hacv hbsv
  unfold Curve.newC at hcv
  rw [FieldElement.new_ok a0 _ hp', FieldElement.new_ok b0 _ hp',
    FieldElement.new_ok 4 _ hp', FieldElement.new_ok 27 _ hp'] at hcv
  simp only [RRes.mapErr_ok, RRes.expectR_ok, RRes.bind_ok, haa, haaa, hac,
    hbb, hbs, hdisc] at hcv
  by_cases hd : disc.value = 0
  · rw [if_pos hd] at hcv
    cases hcv
  · rw [if_neg hd] at hcv
    cases hcv
    have h4z : toZ p (⟨4 % (p : Int), (p : Int)⟩ : FieldElement) = 4 := by
      show ((4 % (p : Int) : Int) : ZMod p) = 4
      rw [intCast_emod_eq]
      norm_num
    have h27z : toZ p (⟨27 % (p : Int), (p : Int)⟩ : FieldElement) = 27 := by
      show ((27 % (p : Int) : Int) : ZMod p) = 27
      rw [intCast_emod_eq]
      norm_num
    refine ⟨rfl, hav, hbv, ?_⟩
    intro h0
    apply hd
    apply (toZ_eq_zero_iff hp hdiscv).mp
    rw [hdiscz, hacz, haaaz, haaz, hbsz, hbbz, h4z, h27z]
    linear_combination h0

/-- Over an odd prime, a non-vanishing `4a³ + 27b²` gives a non-vanishing
Mathlib discriminant `Δ = -16(4a³ + 27b²)`. -/
theorem Delta_ne_zero {p : ℕ} [hpf : Fact p.Prime] (hp2 : p ≠ 2)
    {A B : FieldElement}
    (hd : 4 * toZ p A ^ 3 + 27 * toZ p B ^ 2 ≠ 0) : (Wc p A B).Δ ≠ 0 := by
  have hp : p.Prime := hpf.out
  haveI : NeZero p := ⟨hp.ne_zero⟩
  rw [Wc_Delta]
  intro h
  rcases mul_eq_zero.mp h with h16 | hrest
  · have h16' : ((16 : ℕ) : ZMod p) = 0 := by
      have := neg_eq_zero.mp h16
      exact_mod_cast this
    have hdvd : p ∣ 16 := (ZMod.natCast_zmod_eq_zero_iff_dvd 16 p).mp h16'
    have hdvd2 : p ∣ 2 := hp.dvd_of_dvd_pow (n := 4) (by norm_num at hdvd ⊢; exact hdvd)
    have : p = 2 := (Nat.prime_dvd_prime_iff_eq hp Nat.prime_two).mp hdvd2
    exact hp2 this
  · exact hd hrest


/-! ## Claim C2 -/

/-- Over `F₂` the field negation fixes every element, so `y == -y` always
holds. -/
theorem fneg_char2 {ye : FieldElement} (hyv : ye.Valid 2) : fneg ye = .ok ye := by
  obtain ⟨h1, h2, h3⟩ := hyv
  unfold fneg
  rw [h1, FieldElement.new_ok _ _ (by norm_num)]
  have hc : ((2 : ℕ) : Int) = 2 := by norm_num
  have h4 : ye.value = 0 ∨ ye.value = 1 := by omega
  cases ye with
  | mk v q =>
    simp only at h1 h4 ⊢
    rw [RRes.expectR_ok]
    rcases h4 with h4 | h4 <;> subst h4 <;> rw [h1] <;> norm_num

/-- **C2 (counterexample)**: `point_order` reports order `2` for the point
at infinity on `y² = x³ + 7` over `F₂₂₃`, yet `O * 1` is already the point
at infinity with `0 < 1 < 2` — the reported value is not the order of `O`
(which is `1`). -/
theorem C2_counterexample :
    Curve.newC 0 7 223 = .ok ⟨⟨0, 223⟩, ⟨7, 223⟩, 223⟩ ∧
    Curve.pointOrder ⟨⟨0, 223⟩, ⟨7, 223⟩, 223⟩
      ⟨none, none, ⟨0, 223⟩, ⟨7, 223⟩⟩ = .ok 2 ∧
    (∃ R, Point.mulScalar ⟨none, none, ⟨0, 223⟩, ⟨7, 223⟩⟩ 1 = .ok R ∧
      R.isInf = true) ∧
    (0 : Int) < 1 ∧ (1 : Int) < 2 := by
  have hOO : Point.add (⟨none, none, ⟨0, 223⟩, ⟨7, 223⟩⟩ : Point)
      ⟨none, none, ⟨0, 223⟩, ⟨7, 223⟩⟩ =
      .ok ⟨none, none, ⟨0, 223⟩, ⟨7, 223⟩⟩ := by decide
  refine ⟨by decide, ?_, ⟨⟨none, none, ⟨0, 223⟩, ⟨7, 223⟩⟩, ?_, rfl⟩,
    by norm_num, by norm_num⟩
  · unfold Curve.pointOrder
    rw [Curve.orderLoop, dif_pos (by norm_num), hOO]
    rfl
  · unfold Point.mulScalar
    rw [show Point.new none none (⟨0, 223⟩ : FieldElement) ⟨7, 223⟩ =
      .ok ⟨none, none, ⟨0, 223⟩, ⟨7, 223⟩⟩ from rfl, RRes.bind_ok]
    rw [Point.mulLoop, dif_pos (by norm_num), if_pos (by decide)]
    simp only [hOO, RRes.bind_ok]
    rw [show (1 : Int).tdiv 2 = 0 from by decide]
    rw [Point.mulLoop, dif_neg (by norm_num)]

/-- **C2 (amended)**: for every valid *affine* point `P` of a successfully
constructed curve over a prime modulus, if `point_order` succeeds with `n`,
then `n` is the order of `P`: `P * n` is the point at infinity and `P * k`
is not, for every `0 < k < n`. (The unamended claim fails at the point at
infinity, whose reported order is `2` instead of `1`.) -/
theorem C2_amended {p : ℕ} (hp : p.Prime) {a0 b0 : Int} {cv : Curve}
    (hcv : Curve.newC a0 b0 (p : Int) = .ok cv)
    {P : Point} (hP : P.Valid p cv.a cv.b) {xe ye : FieldElement}
    (hx : P.x = some xe) (hy : P.y = some ye)
    {n : Int} (hord : Curve.pointOrder cv P = .ok n) :
    (∃ R, Point.mulScalar P n = .ok R ∧ R.isInf = true) ∧
    ∀ k : Int, 0 < k → k < n →
      ∃ R, Point.mulScalar P k = .ok R ∧ R.isInf = false := by
  haveI : Fact p.Prime := ⟨hp⟩
  obtain ⟨hprime, hav, hbv, hdisc⟩ := newC_spec hp.pos hcv
  by_cases hp2 : p = 2
  · -- characteristic 2: every affine point doubles to infinity
    subst hp2
    obtain ⟨hxv, hyv, -⟩ := hP.affine hx hy
    have haddPP : Point.add P P = .ok ⟨none, none, cv.a, cv.b⟩ :=
      add_self_inf hP.1 hP.2.1 hx hy (fneg_char2 hyv)
    have haddOP : Point.add ⟨none, none, cv.a, cv.b⟩ P = .ok P :=
      add_inf_left rfl rfl hP.1 hP.2.1 rfl rfl
    have haddOO : Point.add (⟨none, none, cv.a, cv.b⟩ : Point)
        ⟨none, none, cv.a, cv.b⟩ = .ok ⟨none, none, cv.a, cv.b⟩ :=
      add_inf_left rfl rfl rfl rfl rfl rfl
    have hn2 : n = 2 := by
      unfold Curve.pointOrder at hord
      rw [Curve.orderLoop, dif_pos (by rw [hprime]; norm_num), haddPP] at hord
      dsimp only at hord
      rw [if_pos (show Point.isInf ⟨none, none, cv.a, cv.b⟩ = true from rfl)] at hord
      injection hord with h
      omega
    subst hn2
    constructor
    · refine ⟨⟨none, none, cv.a, cv.b⟩, ?_, rfl⟩
      unfold Point.mulScalar
      rw [show Point.new none none P.a P.b = .ok ⟨none, none, P.a, P.b⟩ from rfl,
        RRes.bind_ok, hP.1, hP.2.1]
      rw [Point.mulLoop, dif_pos (by norm_num), if_neg (by decide)]
      simp only [haddPP, RRes.bind_ok]
      rw [show (2 : Int).tdiv 2 = 1 from by decide]
      rw [Point.mulLoop, dif_pos (by norm_num), if_pos (by decide)]
      simp only [haddOO, RRes.bind_ok]
      rw [show (1 : Int).tdiv 2 = 0 from by decide]
      rw [Point.mulLoop, dif_neg (by norm_num)]
    · intro k hk0 hk2
      have hk1 : k = 1 := by omega
      subst hk1
      refine ⟨P, ?_, by simp [Point.isInf, hx]⟩
      unfold Point.mulScalar
      rw [show Point.new none none P.a P.b = .ok ⟨none, none, P.a, P.b⟩ from rfl,
        RRes.bind_ok, hP.1, hP.2.1]
      rw [Point.mulLoop, dif_pos (by norm_num), if_pos (by decide)]
      simp only [haddOP, haddPP, RRes.bind_ok]
      rw [show (1 : Int).tdiv 2 = 0 from by decide]
      rw [Point.mulLoop, dif_neg (by norm_num)]
  · -- odd characteristic: transfer along the Mathlib group
    have hΔ : (Wc p cv.a cv.b).Δ ≠ 0 := Delta_ne_zero hp2 hdisc
    obtain ⟨h1n, hzero, hmin⟩ := pointOrder_spec hav hbv hΔ hP hord
    have hPnz : toW p cv.a cv.b P (hP.ns hΔ) ≠ 0 := by
      rw [ne_eq, toW_eq_zero_iff hΔ hP]
      simp [Point.isInf, hx]
    constructor
    · obtain ⟨R, hR, hRv, hRw⟩ := mulScalar_toW hav hbv hΔ hP n
      refine ⟨R, hR, ?_⟩
      exact (toW_eq_zero_iff hΔ hRv).mp (by rw [hRw]; exact hzero)
    · intro k hk0 hkn
      obtain ⟨R, hR, hRv, hRw⟩ := mulScalar_toW hav hbv hΔ hP k
      refine ⟨R, hR, ?_⟩
      have hRnz : toW p cv.a cv.b R (hRv.ns hΔ) ≠ 0 := by
        rw [hRw]
        by_cases hk1 : k.toNat = 1
        · rw [hk1, one_nsmul]
          exact hPnz
        · exact hmin k.toNat (by omega) (by omega)
      cases hRj : R.isInf
      · rfl
      · exact absurd ((toW_eq_zero_iff hΔ hRv).mpr hRj) hRnz

/-- Witness for the amended C2: `(0,1)` on `y² = x³ + 1` over `F₂` has
reported order `2`; doubling it gives infinity, `P * 1` does not. -/
theorem C2_witness :
    (∃ R, Point.mulScalar ⟨some ⟨0, 2⟩, some ⟨1, 2⟩, ⟨0, 2⟩, ⟨1, 2⟩⟩ 2 = .ok R ∧
      R.isInf = true) ∧
    (∃ R, Point.mulScalar ⟨some ⟨0, 2⟩, some ⟨1, 2⟩, ⟨0, 2⟩, ⟨1, 2⟩⟩ 1 = .ok R ∧
      R.isInf = false) := by
  have hadd : Point.add (⟨some ⟨0, 2⟩, some ⟨1, 2⟩, ⟨0, 2⟩, ⟨1, 2⟩⟩ : Point)
      ⟨some ⟨0, 2⟩, some ⟨1, 2⟩, ⟨0, 2⟩, ⟨1, 2⟩⟩ =
      .ok ⟨none, none, ⟨0, 2⟩, ⟨1, 2⟩⟩ := by decide
  have hord : Curve.pointOrder ⟨⟨0, 2⟩, ⟨1, 2⟩, ((2 : ℕ) : Int)⟩
      ⟨some ⟨0, 2⟩, some ⟨1, 2⟩, ⟨0, 2⟩, ⟨1, 2⟩⟩ = .ok 2 := by
    unfold Curve.pointOrder
    rw [Curve.orderLoop, dif_pos (by norm_num), hadd]
    rfl
  have h := C2_amended (p := 2) (by norm_num)
    (show Curve.newC 0 1 ((2 : ℕ) : Int) =
      .ok ⟨⟨0, 2⟩, ⟨1, 2⟩, ((2 : ℕ) : Int)⟩ from by decide)
    ⟨rfl, rfl, Or.inr ⟨⟨0, 2⟩, ⟨1, 2⟩, rfl, rfl, by exact ⟨by norm_num, by norm_num, by norm_num⟩,
      by exact ⟨by norm_num, by norm_num, by norm_num⟩, by decide⟩⟩
    rfl rfl hord
  exact ⟨h.1, h.2 1 (by norm_num) (by norm_num)⟩


/-! ## Claim C3 -/

/-- The interpretation of valid points in the Mathlib group is injective. -/
theorem toW_inj {p : ℕ} [hpf : Fact p.Prime] {A B : FieldElement}
    (hΔ : (Wc p A B).Δ ≠ 0) {P Q : Point}
    (hP : P.Valid p A B) (hQ : Q.Valid p A B)
    (h : toW p A B P (hP.ns hΔ) = toW p A B Q (hQ.ns hΔ)) : P = Q := by
  have hp : p.Prime := hpf.out
  have hPa := hP.1
  have hPb := hP.2.1
  have hQa := hQ.1
  have hQb := hQ.2.1
  rcases hP.2.2 with ⟨hPx, hPy⟩ | ⟨x1, y1, hPx, hPy, hx1v, hy1v, e1⟩
  · rcases hQ.2.2 with ⟨hQx, hQy⟩ | ⟨x2, y2, hQx, hQy, hx2v, hy2v, e2⟩
    · cases P
      cases Q
      simp only at hPx hPy hQx hQy hPa hPb hQa hQb
      rw [hPx, hPy, hQx, hQy, hPa, hPb, hQa, hQb]
    · rw [toW_inf P _ hPx hPy, toW_affine Q _ hQx hQy] at h
      exact absurd h.symm (WeierstrassCurve.Affine.Point.some_ne_zero _)
  · rcases hQ.2.2 with ⟨hQx, hQy⟩ | ⟨x2, y2, hQx, hQy, hx2v, hy2v, e2⟩
    · rw [toW_affine P _ hPx hPy, toW_inf Q _ hQx hQy] at h
      exact absurd h (WeierstrassCurve.Affine.Point.some_ne_zero _)
    · rw [toW_affine P _ hPx hPy, toW_affine Q _ hQx hQy] at h
      injection h with hzx hzy
      have hxx : x1 = x2 := toZ_inj hp.pos hx1v hx2v hzx
      have hyy : y1 = y2 := toZ_inj hp.pos hy1v hy2v hzy
      cases P
      cases Q
      simp only at hPx hPy hQx hQy hPa hPb hQa hQb
      rw [hPx, hPy, hQx, hQy, hPa, hPb, hQa, hQb, hxx, hyy]

/-- **C3 (amended)**: ElGamal round trip over an *odd* prime modulus: for a
valid curve, generator `G`, key pair `(k, B = G * k)`, on-curve message
point `M` and ephemeral scalar `r > 0`, decrypting the ciphertext produced
by `encrypt(M, Some(r))` returns exactly `M`. (The unamended claim fails
over `F₂`, where the chord-and-tangent formulas are degenerate.) -/
theorem C3_amended {p : ℕ} (hp : p.Prime) (hp2 : p ≠ 2) {a0 b0 : Int}
    {cv : Curve} (hcv : Curve.newC a0 b0 (p : Int) = .ok cv)
    {G B M : Point} (hG : G.Valid p cv.a cv.b) (hM : M.Valid p cv.a cv.b)
    {k : Int} (hB : Point.mulScalar G k = .ok B)
    {r : Int} (hr : 0 < r) {ct : Ciphertext}
    (henc : ElGamal.encryptSome ⟨cv, G, k, B⟩ M r = .ok ct) :
    ElGamal.decrypt ⟨cv, G, k, B⟩ ct = .ok M := by
  haveI : Fact p.Prime := ⟨hp⟩
  obtain ⟨hprime, hav, hbv, hdisc⟩ := newC_spec hp.pos hcv
  have hΔ : (Wc p cv.a cv.b).Δ ≠ 0 := Delta_ne_zero hp2 hdisc
  obtain ⟨B', hB', hBv, hBw⟩ := mulScalar_toW hav hbv hΔ hG k
  rw [hB'] at hB
  injection hB with hBeq
  subst hBeq
  unfold ElGamal.encryptSome at henc
  dsimp only at henc
  cases hord : Curve.pointOrder cv G with
  | ok w =>
    rw [hord] at henc
    simp only [RRes.mapErr_ok, RRes.bind_ok] at henc
    obtain ⟨c1, hc1, hc1v, hc1w⟩ := mulScalar_toW hav hbv hΔ hG r
    rw [hc1] at henc
    simp only [RRes.mapErr_ok, RRes.bind_ok] at henc
    obtain ⟨rb, hrb, hrbv, hrbw⟩ := mulScalar_toW hav hbv hΔ hBv r
    rw [hrb] at henc
    simp only [RRes.mapErr_ok, RRes.bind_ok] at henc
    obtain ⟨c2, hc2, hc2v, hc2w⟩ := add_toW hav hbv hΔ hM hrbv
    rw [hc2] at henc
    simp only [RRes.mapErr_ok, RRes.bind_ok] at henc
    injection henc with hct
    subst hct
    unfold ElGamal.decrypt
    dsimp only
    obtain ⟨p1, hp1, hp1v, hp1w⟩ := mulScalar_toW hav hbv hΔ hc1v k
    rw [hp1]
    simp only [RRes.mapErr_ok, RRes.bind_ok]
    obtain ⟨np, hnp, hnpv, hnpw⟩ := negP_toW hΔ hp1v
    rw [hnp]
    simp only [RRes.mapErr_ok, RRes.bind_ok]
    obtain ⟨F, hF, hFv, hFw⟩ := add_toW hav hbv hΔ hc2v hnpv
    rw [hF]
    simp only [RRes.mapErr_ok]
    have hcomm : k.toNat • r.toNat • toW p cv.a cv.b G (hG.ns hΔ) =
        r.toNat • k.toNat • toW p cv.a cv.b G (hG.ns hΔ) := by
      rw [← mul_nsmul, ← mul_nsmul, Nat.mul_comm]
    have hFM : F = M := by
      apply toW_inj hΔ hFv hM
      rw [hFw, hc2w, hnpw, hp1w, hc1w, hrbw, hBw, hcomm]
      abel
    rw [hFM]
  | err e =>
    rw [hord] at henc
    simp only [RRes.mapErr_err, RRes.bind_err] at henc
    cases henc
  | panics =>
    rw [hord] at henc
    simp only [RRes.mapErr_panics, RRes.bind_panics] at henc
    cases henc


/-- **C3 (counterexample)**: over the valid curve `y² = x³ + 1` on `F₂`
(a prime field), with generator `G = (0,1)`, key pair `(1, G)`, on-curve
message `M = (1,0)` and ephemeral scalar `r = 1 > 0`, encryption succeeds
but decryption returns the point at infinity, not `M`. -/
theorem C3_counterexample :
    Nat.Prime 2 ∧
    Curve.newC 0 1 2 = .ok ⟨⟨0, 2⟩, ⟨1, 2⟩, 2⟩ ∧
    Point.Valid 2 ⟨0, 2⟩ ⟨1, 2⟩ ⟨some ⟨0, 2⟩, some ⟨1, 2⟩, ⟨0, 2⟩, ⟨1, 2⟩⟩ ∧
    Point.Valid 2 ⟨0, 2⟩ ⟨1, 2⟩ ⟨some ⟨1, 2⟩, some ⟨0, 2⟩, ⟨0, 2⟩, ⟨1, 2⟩⟩ ∧
    Point.mulScalar ⟨some ⟨0, 2⟩, some ⟨1, 2⟩, ⟨0, 2⟩, ⟨1, 2⟩⟩ 1 =
      .ok ⟨some ⟨0, 2⟩, some ⟨1, 2⟩, ⟨0, 2⟩, ⟨1, 2⟩⟩ ∧
    (0 : Int) < 1 ∧
    ElGamal.encryptSome
      ⟨⟨⟨0, 2⟩, ⟨1, 2⟩, 2⟩, ⟨some ⟨0, 2⟩, some ⟨1, 2⟩, ⟨0, 2⟩, ⟨1, 2⟩⟩, 1,
        ⟨some ⟨0, 2⟩, some ⟨1, 2⟩, ⟨0, 2⟩, ⟨1, 2⟩⟩⟩
      ⟨some ⟨1, 2⟩, some ⟨0, 2⟩, ⟨0, 2⟩, ⟨1, 2⟩⟩ 1 =
      .ok ⟨⟨some ⟨0, 2⟩, some ⟨1, 2⟩, ⟨0, 2⟩, ⟨1, 2⟩⟩,
        ⟨some ⟨0, 2⟩, some ⟨1, 2⟩, ⟨0, 2⟩, ⟨1, 2⟩⟩⟩ ∧
    ElGamal.decrypt
      ⟨⟨⟨0, 2⟩, ⟨1, 2⟩, 2⟩, ⟨some ⟨0, 2⟩, some ⟨1, 2⟩, ⟨0, 2⟩, ⟨1, 2⟩⟩, 1,
        ⟨some ⟨0, 2⟩, some ⟨1, 2⟩, ⟨0, 2⟩, ⟨1, 2⟩⟩⟩
      ⟨⟨some ⟨0, 2⟩, some ⟨1, 2⟩, ⟨0, 2⟩, ⟨1, 2⟩⟩,
        ⟨some ⟨0, 2⟩, some ⟨1, 2⟩, ⟨0, 2⟩, ⟨1, 2⟩⟩⟩ =
      .ok ⟨none, none, ⟨0, 2⟩, ⟨1, 2⟩⟩ ∧
    (⟨none, none, ⟨0, 2⟩, ⟨1, 2⟩⟩ : Point) ≠
      ⟨some ⟨1, 2⟩, some ⟨0, 2⟩, ⟨0, 2⟩, ⟨1, 2⟩⟩ := by
  have hGG : Point.add (⟨some ⟨0, 2⟩, some ⟨1, 2⟩, ⟨0, 2⟩, ⟨1, 2⟩⟩ : Point)
      ⟨some ⟨0, 2⟩, some ⟨1, 2⟩, ⟨0, 2⟩, ⟨1, 2⟩⟩ =
      .ok ⟨none, none, ⟨0, 2⟩, ⟨1, 2⟩⟩ := by decide
  have hOG : Point.add (⟨none, none, ⟨0, 2⟩, ⟨1, 2⟩⟩ : Point)
      ⟨some ⟨0, 2⟩, some ⟨1, 2⟩, ⟨0, 2⟩, ⟨1, 2⟩⟩ =
      .ok ⟨some ⟨0, 2⟩, some ⟨1, 2⟩, ⟨0, 2⟩, ⟨1, 2⟩⟩ := by decide
  have hordG : Curve.pointOrder ⟨⟨0, 2⟩, ⟨1, 2⟩, 2⟩
      ⟨some ⟨0, 2⟩, some ⟨1, 2⟩, ⟨0, 2⟩, ⟨1, 2⟩⟩ = .ok 2 := by
    unfold Curve.pointOrder
    rw [Curve.orderLoop, dif_pos (by norm_num), hGG]
    rfl
  have hmulG1 : Point.mulScalar ⟨some ⟨0, 2⟩, some ⟨1, 2⟩, ⟨0, 2⟩, ⟨1, 2⟩⟩ 1 =
      .ok ⟨some ⟨0, 2⟩, some ⟨1, 2⟩, ⟨0, 2⟩, ⟨1, 2⟩⟩ := by
    unfold Point.mulScalar
    dsimp only
    rw [show Point.new none none (⟨0, 2⟩ : FieldElement) ⟨1, 2⟩ =
      .ok ⟨none, none, ⟨0, 2⟩, ⟨1, 2⟩⟩ from rfl, RRes.bind_ok]
    rw [Point.mulLoop, dif_pos (by norm_num), if_pos (by decide)]
    simp only [hOG, hGG, RRes.bind_ok]
    rw [show (1 : Int).tdiv 2 = 0 from by decide]
    rw [Point.mulLoop, dif_neg (by norm_num)]
  have hegcd : egcdLoop 2 1 1 0 0 1 = (1, 0, 1) := by
    rw [egcdLoop, dif_neg (by norm_num)]
    rw [show (2 : Int) - (2 : Int).tdiv 1 * 1 = 0 from by decide,
      show (1 : Int) - (2 : Int).tdiv 1 * 0 = 1 from by decide,
      show (0 : Int) - (2 : Int).tdiv 1 * 1 = -2 from by decide]
    rw [egcdLoop, dif_pos rfl]
  have hfinv : finv ⟨1, 2⟩ = .ok ⟨1, 2⟩ := by
    have h1 : finv ⟨1, 2⟩ =
        (if ((1 : Int), (0 : Int), (1 : Int)).1 ≠ 1 then .err .InvalidElement
          else FieldElement.new ((1 : Int), (0 : Int), (1 : Int)).2.2 2) := by
      unfold finv
      rw [if_neg (by norm_num)]
      dsimp only
      rw [hegcd]
    rw [h1]
    decide
  have hfdiv : fdiv ⟨1, 2⟩ ⟨1, 2⟩ = .ok ⟨1, 2⟩ := by
    unfold fdiv
    rw [if_pos rfl, hfinv]
    decide
  have hMG : Point.add (⟨some ⟨1, 2⟩, some ⟨0, 2⟩, ⟨0, 2⟩, ⟨1, 2⟩⟩ : Point)
      ⟨some ⟨0, 2⟩, some ⟨1, 2⟩, ⟨0, 2⟩, ⟨1, 2⟩⟩ =
      .ok ⟨some ⟨0, 2⟩, some ⟨1, 2⟩, ⟨0, 2⟩, ⟨1, 2⟩⟩ := by
    unfold Point.add
    rw [if_neg (by decide), if_neg (by decide), if_neg (by decide)]
    dsimp only
    rw [if_neg (by decide)]
    unfold Point.addSlopeCase
    rw [if_neg (by decide)]
    rw [show fsub (⟨1, 2⟩ : FieldElement) ⟨0, 2⟩ = .ok ⟨1, 2⟩ from by decide]
    simp only [fres, RRes.mapErr_ok, RRes.bind_ok]
    rw [show fsub (⟨0, 2⟩ : FieldElement) ⟨1, 2⟩ = .ok ⟨1, 2⟩ from by decide]
    simp only [RRes.mapErr_ok, RRes.bind_ok]
    rw [hfdiv]
    simp only [RRes.mapErr_ok, RRes.bind_ok]
    decide
  have hnegG : Point.negP ⟨some ⟨0, 2⟩, some ⟨1, 2⟩, ⟨0, 2⟩, ⟨1, 2⟩⟩ =
      .ok ⟨some ⟨0, 2⟩, some ⟨1, 2⟩, ⟨0, 2⟩, ⟨1, 2⟩⟩ := by decide
  refine ⟨by norm_num, by decide,
    ⟨rfl, rfl, Or.inr ⟨⟨0, 2⟩, ⟨1, 2⟩, rfl, rfl,
      ⟨by norm_num, by norm_num, by norm_num⟩,
      ⟨by norm_num, by norm_num, by norm_num⟩, by decide⟩⟩,
    ⟨rfl, rfl, Or.inr ⟨⟨1, 2⟩, ⟨0, 2⟩, rfl, rfl,
      ⟨by norm_num, by norm_num, by norm_num⟩,
      ⟨by norm_num, by norm_num, by norm_num⟩, by decide⟩⟩,
    hmulG1, by norm_num, ?_, ?_, by decide⟩
  · unfold ElGamal.encryptSome
    dsimp only
    rw [hordG]
    simp only [RRes.mapErr_ok, RRes.bind_ok]
    rw [hmulG1]
    simp only [RRes.mapErr_ok, RRes.bind_ok]
    rw [hMG]
    simp only [RRes.mapErr_ok, RRes.bind_ok]
  · unfold ElGamal.decrypt
    dsimp only
    rw [hmulG1]
    simp only [RRes.mapErr_ok, RRes.bind_ok]
    rw [hnegG]
    simp only [RRes.mapErr_ok, RRes.bind_ok]
    rw [hGG]
    rfl

/-- Witness for the amended C3 over `F₅` (`y² = x³ + 1`): generator
`(4, 0)`, key pair `(1, G)`, message `O`, `r = 1`; decryption recovers the
message. -/
theorem C3_witness :
    ElGamal.decrypt
      ⟨⟨⟨0, 5⟩, ⟨1, 5⟩, ((5 : ℕ) : Int)⟩,
        ⟨some ⟨4, 5⟩, some ⟨0, 5⟩, ⟨0, 5⟩, ⟨1, 5⟩⟩, 1,
        ⟨some ⟨4, 5⟩, some ⟨0, 5⟩, ⟨0, 5⟩, ⟨1, 5⟩⟩⟩
      ⟨⟨some ⟨4, 5⟩, some ⟨0, 5⟩, ⟨0, 5⟩, ⟨1, 5⟩⟩,
        ⟨some ⟨4, 5⟩, some ⟨0, 5⟩, ⟨0, 5⟩, ⟨1, 5⟩⟩⟩ =
      .ok ⟨none, none, ⟨0, 5⟩, ⟨1, 5⟩⟩ := by
  have hGG : Point.add (⟨some ⟨4, 5⟩, some ⟨0, 5⟩, ⟨0, 5⟩, ⟨1, 5⟩⟩ : Point)
      ⟨some ⟨4, 5⟩, some ⟨0, 5⟩, ⟨0, 5⟩, ⟨1, 5⟩⟩ =
      .ok ⟨none, none, ⟨0, 5⟩, ⟨1, 5⟩⟩ := by decide
  have hOG : Point.add (⟨none, none, ⟨0, 5⟩, ⟨1, 5⟩⟩ : Point)
      ⟨some ⟨4, 5⟩, some ⟨0, 5⟩, ⟨0, 5⟩, ⟨1, 5⟩⟩ =
      .ok ⟨some ⟨4, 5⟩, some ⟨0, 5⟩, ⟨0, 5⟩, ⟨1, 5⟩⟩ := by decide
  have hordG : Curve.pointOrder ⟨⟨0, 5⟩, ⟨1, 5⟩, ((5 : ℕ) : Int)⟩
      ⟨some ⟨4, 5⟩, some ⟨0, 5⟩, ⟨0, 5⟩, ⟨1, 5⟩⟩ = .ok 2 := by
    unfold Curve.pointOrder
    rw [Curve.orderLoop, dif_pos (by norm_num), hGG]
    rfl
  have hmulG1 : Point.mulScalar ⟨some ⟨4, 5⟩, some ⟨0, 5⟩, ⟨0, 5⟩, ⟨1, 5⟩⟩ 1 =
      .ok ⟨some ⟨4, 5⟩, some ⟨0, 5⟩, ⟨0, 5⟩, ⟨1, 5⟩⟩ := by
    unfold Point.mulScalar
    dsimp only
    rw [show Point.new none none (⟨0, 5⟩ : FieldElement) ⟨1, 5⟩ =
      .ok ⟨none, none, ⟨0, 5⟩, ⟨1, 5⟩⟩ from rfl, RRes.bind_ok]
    rw [Point.mulLoop, dif_pos (by norm_num), if_pos (by decide)]
    simp only [hOG, hGG, RRes.bind_ok]
    rw [show (1 : Int).tdiv 2 = 0 from by decide]
    rw [Point.mulLoop, dif_neg (by norm_num)]
  have hMrb : Point.add (⟨none, none, ⟨0, 5⟩, ⟨1, 5⟩⟩ : Point)
      ⟨some ⟨4, 5⟩, some ⟨0, 5⟩, ⟨0, 5⟩, ⟨1, 5⟩⟩ =
      .ok ⟨some ⟨4, 5⟩, some ⟨0, 5⟩, ⟨0, 5⟩, ⟨1, 5⟩⟩ := hOG
  have henc : ElGamal.encryptSome
      ⟨⟨⟨0, 5⟩, ⟨1, 5⟩, ((5 : ℕ) : Int)⟩,
        ⟨some ⟨4, 5⟩, some ⟨0, 5⟩, ⟨0, 5⟩, ⟨1, 5⟩⟩, 1,
        ⟨some ⟨4, 5⟩, some ⟨0, 5⟩, ⟨0, 5⟩, ⟨1, 5⟩⟩⟩
      ⟨none, none, ⟨0, 5⟩, ⟨1, 5⟩⟩ 1 =
      .ok ⟨⟨some ⟨4, 5⟩, some ⟨0, 5⟩, ⟨0, 5⟩, ⟨1, 5⟩⟩,
        ⟨some ⟨4, 5⟩, some ⟨0, 5⟩, ⟨0, 5⟩, ⟨1, 5⟩⟩⟩ := by
    unfold ElGamal.encryptSome
    dsimp only
    rw [hordG]
    simp only [RRes.mapErr_ok, RRes.bind_ok]
    rw [hmulG1]
    simp only [RRes.mapErr_ok, RRes.bind_ok]
    rw [hMrb]
    simp only [RRes.mapErr_ok, RRes.bind_ok]
  exact C3_amended (p := 5) (by norm_num) (by norm_num)
    (show Curve.newC 0 1 ((5 : ℕ) : Int) =
      .ok ⟨⟨0, 5⟩, ⟨1, 5⟩, ((5 : ℕ) : Int)⟩ from by decide)
    ⟨rfl, rfl, Or.inr ⟨⟨4, 5⟩, ⟨0, 5⟩, rfl, rfl,
      ⟨by norm_num, by norm_num, by norm_num⟩,
      ⟨by norm_num, by norm_num, by norm_num⟩, by decide⟩⟩
    ⟨rfl, rfl, Or.inl ⟨rfl, rfl⟩⟩
    hmulG1 (by norm_num) henc

end ECC
